import Mathlib

/-!
# Verification of the dicharts core algorithms

A shallow embedding, over exact rationals (`ℚ`) and reals (`ℝ`), of the four
core mechanisms of the dicharts chart widgets:

* the squarified treemap layout (`src/charts/Heatmap.ts`: `layoutTreemap`,
  `squarify`, `worst`, `layoutRow`),
* the per-item staggered animation scheduler (`src/charts/BarChart.ts`:
  `EASINGS`, `barProgress`, `tick`; `src/charts/Sparkline.ts`: `sliceProgress`),
* the hit-testing layer (`src/charts/Sparkline.ts`: `hitTest`; the area
  chart's `findHoveredIndex`),
* the theme/luminance resolver (`isLightBg`, `hexLuminance`, `parseLuminance`).

JavaScript `number` arithmetic is idealised as exact `ℚ` (or `ℝ` where the
code uses transcendental functions).  The JS sentinel `Infinity` that the
`worst` aspect-ratio metric and the hover-distance scan use is modelled with
`WithTop ℚ` (JS `Infinity <= Infinity` is true, matching the `⊤ ≤ ⊤` of
`WithTop`); the `Infinity` "final frame" sentinel for elapsed time is a
dedicated constructor of `Elapsed`.  Division by zero — which the theorems'
hypotheses always exclude on the paths they traverse — is the `ℚ` convention
`x / 0 = 0`.  Strings are modelled as their character lists.
-/

namespace DiCharts

/-! ## Treemap layout engine (`src/charts/Heatmap.ts`)

`HeatmapItem` carries several display fields (`label`, `change`, …) that the
layout never reads; only `weight` is consumed.  The item is modelled by its
weight plus an opaque `tag` standing for the rest of the payload. -/

structure HItem where
  weight : ℚ
  tag : ℕ
  deriving DecidableEq, Repr

structure LayoutRect where
  x : ℚ
  y : ℚ
  w : ℚ
  h : ℚ
  item : HItem
  deriving DecidableEq, Repr

/-- `row.reduce((s, i) => s + i.weight, 0)`. -/
def sumWeight (row : List HItem) : ℚ :=
  (row.map (·.weight)).sum

/-- `items.slice().sort((a, b) => b.weight - a.weight)`: a stable sort by
descending weight (JS engines implement a stable sort). -/
def sortDesc (items : List HItem) : List HItem :=
  items.mergeSort (fun a b => b.weight ≤ a.weight)

/-- `worst(row, w, h, area, totalArea)` from `Heatmap.ts` (the `area`
argument is received but never read by the source body).  The JS `Infinity`
results — `side <= 0`, and `side / other` when `other` is `0` — are `⊤`. -/
def worst (row : List HItem) (w h _area totalArea : ℚ) : WithTop ℚ :=
  let rowWeight := sumWeight row
  let fraction := rowWeight / totalArea
  let isWide : Bool := w ≥ h
  let side := if isWide then fraction * w else fraction * h
  if side ≤ 0 then ⊤
  else
    row.foldl (fun maxR item =>
      let itemFrac := item.weight / rowWeight
      let other := if isWide then itemFrac * h else itemFrac * w
      let r : WithTop ℚ :=
        if other = 0 then ⊤ else ((max (side / other) (other / side) : ℚ) : WithTop ℚ)
      max maxR r) ((0 : ℚ) : WithTop ℚ)

/-- The body of `layoutRow`'s `for` loop, carrying the running `offset`;
`out.push` becomes list `cons`. -/
def layoutRowGo (rowWeight : ℚ) (isWide : Bool) (x y w h gap : ℚ) :
    ℚ → List HItem → List LayoutRect
  | _, [] => []
  | offset, item :: rest =>
    let frac := item.weight / rowWeight
    let rx := if isWide then x else x + offset
    let ry := if isWide then y + offset else y
    let rw := if isWide then w else frac * w
    let rh := if isWide then frac * h else h
    let offset' := offset + (if isWide then rh else rw)
    let g := gap / 2
    ⟨rx + g, ry + g, max 0 (rw - gap), max 0 (rh - gap), item⟩ ::
      layoutRowGo rowWeight isWide x y w h gap offset' rest

/-- `layoutRow(row, x, y, w, h, totalArea, out, gap)`; `totalArea` is
received but never read by the source body. -/
def layoutRow (row : List HItem) (x y w h _totalArea gap : ℚ) : List LayoutRect :=
  if row = [] then []
  else layoutRowGo (sumWeight row) (w ≥ h) x y w h gap 0 row

/-- `squarify(children, row, x, y, w, h, totalArea, out, gap)`; the output
accumulator becomes the returned list. -/
def squarify (children row : List HItem) (x y w h totalArea gap : ℚ) :
    List LayoutRect :=
  match children with
  | [] => layoutRow row x y w h totalArea gap
  | c :: cs =>
    let area := w * h
    let newRow := row ++ [c]
    if _h : row = [] ∨ worst newRow w h area totalArea ≤ worst row w h area totalArea then
      squarify cs newRow x y w h totalArea gap
    else
      let rowWeight := sumWeight row
      let fraction := rowWeight / totalArea
      if w ≥ h then
        let rowW := fraction * w
        layoutRow row x y rowW h totalArea gap ++
          squarify (c :: cs) [] (x + rowW) y (w - rowW) h (totalArea - rowWeight) gap
      else
        let rowH := fraction * h
        layoutRow row x y w rowH totalArea gap ++
          squarify (c :: cs) [] x (y + rowH) w (h - rowH) (totalArea - rowWeight) gap
termination_by 2 * children.length + (if row = [] then 0 else 1)
decreasing_by
  all_goals simp_all
  all_goals omega

/-- `layoutTreemap(items, x, y, w, h, gap)` from `Heatmap.ts`. -/
def layoutTreemap (items : List HItem) (x y w h gap : ℚ) : List LayoutRect :=
  if items = [] then []
  else
    let sorted := sortDesc items
    let totalWeight := sumWeight sorted
    if totalWeight ≤ 0 then []
    else squarify sorted [] x y w h totalWeight gap

/-- Area of an output rectangle. -/
def rectArea (r : LayoutRect) : ℚ := r.w * r.h

/-- Two rectangles overlap when their interiors intersect. -/
def overlaps (a b : LayoutRect) : Prop :=
  a.x < b.x + b.w ∧ b.x < a.x + a.w ∧ a.y < b.y + b.h ∧ b.y < a.y + a.h

instance : DecidablePred fun p : LayoutRect × LayoutRect => overlaps p.1 p.2 :=
  fun _ => by unfold overlaps; infer_instance

/-- Containment of a rectangle in the region `[x, x+w] × [y, y+h]`. -/
def inRegion (r : LayoutRect) (x y w h : ℚ) : Prop :=
  x ≤ r.x ∧ r.x + r.w ≤ x + w ∧ y ≤ r.y ∧ r.y + r.h ≤ y + h ∧ 0 ≤ r.w ∧ 0 ≤ r.h

/-! ### Elementary facts about `sumWeight` -/

@[simp] theorem sumWeight_nil : sumWeight [] = 0 := rfl

@[simp] theorem sumWeight_cons (i : HItem) (l : List HItem) :
    sumWeight (i :: l) = i.weight + sumWeight l := by
  simp [sumWeight]

theorem sumWeight_append (l₁ l₂ : List HItem) :
    sumWeight (l₁ ++ l₂) = sumWeight l₁ + sumWeight l₂ := by
  simp [sumWeight]

theorem sumWeight_nonneg {l : List HItem} (h : ∀ i ∈ l, 0 ≤ i.weight) :
    0 ≤ sumWeight l := by
  induction l with
  | nil => simp
  | cons i l ih =>
    have := h i (by simp)
    have := ih (fun j hj => h j (by simp [hj]))
    simp only [sumWeight_cons]
    linarith

theorem sumWeight_pos {l : List HItem} (hne : l ≠ [])
    (h : ∀ i ∈ l, 0 < i.weight) : 0 < sumWeight l := by
  match l with
  | i :: rest =>
    have h1 := h i (by simp)
    have h2 := sumWeight_nonneg (l := rest) (fun j hj => le_of_lt (h j (by simp [hj])))
    simp only [sumWeight_cons]
    linarith

theorem sortDesc_perm (items : List HItem) : (sortDesc items).Perm items :=
  List.mergeSort_perm items _

/-! ### The strip layout: characterization of `layoutRowGo`

A "wide" strip (`w ≥ h`) receives its items stacked along `y`, each spanning
the strip's full width; a "tall" strip receives them along `x`, each spanning
the strip's full height. -/

theorem layoutRowGo_wide
    (rw : ℚ) (x y w h : ℚ) (hrw : 0 < rw) (hw : 0 ≤ w) (hh : 0 ≤ h) :
    ∀ (row : List HItem) (offset : ℚ),
      (∀ i ∈ row, 0 ≤ i.weight) →
      (((layoutRowGo rw true x y w h 0 offset row).map rectArea).sum
          = sumWeight row / rw * h * w) ∧
      (∀ r ∈ layoutRowGo rw true x y w h 0 offset row,
          r.x = x ∧ r.w = w ∧ 0 ≤ r.h ∧
          y + offset ≤ r.y ∧ r.y + r.h ≤ y + offset + sumWeight row / rw * h) ∧
      (layoutRowGo rw true x y w h 0 offset row).Pairwise (fun a b => ¬ overlaps a b)
  | [], offset, _ => by simp [layoutRowGo]
  | item :: rest, offset, hwt => by
    have hfrac : 0 ≤ item.weight / rw :=
      div_nonneg (hwt item (by simp)) (le_of_lt hrw)
    have hrest : 0 ≤ sumWeight rest / rw :=
      div_nonneg (sumWeight_nonneg (fun j hj => hwt j (by simp [hj]))) (le_of_lt hrw)
    have ih := layoutRowGo_wide rw x y w h hrw hw hh rest
      (offset + item.weight / rw * h) (fun j hj => hwt j (by simp [hj]))
    obtain ⟨ihsum, ihmem, ihpw⟩ := ih
    have hrh : 0 ≤ item.weight / rw * h := mul_nonneg hfrac hh
    have hmax1 : max 0 (w - 0) = w := by simpa using hw
    have hmax2 : max 0 (item.weight / rw * h - 0) = item.weight / rw * h := by
      simpa using hrh
    refine ⟨?_, ?_, ?_⟩
    · simp only [layoutRowGo, if_true, List.map_cons, List.sum_cons, ihsum,
        sumWeight_cons, hmax1, hmax2, rectArea]
      ring
    · intro r hr
      simp only [layoutRowGo, if_true, List.mem_cons, hmax1, hmax2] at hr
      rcases hr with rfl | hr
      · refine ⟨by ring, rfl, hrh, by simp [zero_div], ?_⟩
        have : 0 ≤ sumWeight rest / rw * h := mul_nonneg hrest hh
        simp only [sumWeight_cons]
        have : (item.weight + sumWeight rest) / rw * h
            = item.weight / rw * h + sumWeight rest / rw * h := by ring
        rw [this]
        linarith
      · obtain ⟨h1, h2, h3, h4, h5⟩ := ihmem r hr
        refine ⟨h1, h2, h3, by linarith, ?_⟩
        simp only [sumWeight_cons]
        have : (item.weight + sumWeight rest) / rw * h
            = item.weight / rw * h + sumWeight rest / rw * h := by ring
        rw [this]
        linarith
    · simp only [layoutRowGo, if_true, hmax1, hmax2, List.pairwise_cons]
      refine ⟨?_, ihpw⟩
      intro r hr
      obtain ⟨_, _, _, h4, _⟩ := ihmem r hr
      intro hov
      obtain ⟨_, _, hov3, _⟩ := hov
      simp only at hov3
      linarith

theorem layoutRowGo_tall
    (rw : ℚ) (x y w h : ℚ) (hrw : 0 < rw) (hw : 0 ≤ w) (hh : 0 ≤ h) :
    ∀ (row : List HItem) (offset : ℚ),
      (∀ i ∈ row, 0 ≤ i.weight) →
      (((layoutRowGo rw false x y w h 0 offset row).map rectArea).sum
          = sumWeight row / rw * w * h) ∧
      (∀ r ∈ layoutRowGo rw false x y w h 0 offset row,
          r.y = y ∧ r.h = h ∧ 0 ≤ r.w ∧
          x + offset ≤ r.x ∧ r.x + r.w ≤ x + offset + sumWeight row / rw * w) ∧
      (layoutRowGo rw false x y w h 0 offset row).Pairwise (fun a b => ¬ overlaps a b)
  | [], offset, _ => by simp [layoutRowGo]
  | item :: rest, offset, hwt => by
    have hfrac : 0 ≤ item.weight / rw :=
      div_nonneg (hwt item (by simp)) (le_of_lt hrw)
    have hrest : 0 ≤ sumWeight rest / rw :=
      div_nonneg (sumWeight_nonneg (fun j hj => hwt j (by simp [hj]))) (le_of_lt hrw)
    have ih := layoutRowGo_tall rw x y w h hrw hw hh rest
      (offset + item.weight / rw * w) (fun j hj => hwt j (by simp [hj]))
    obtain ⟨ihsum, ihmem, ihpw⟩ := ih
    have hrw' : 0 ≤ item.weight / rw * w := mul_nonneg hfrac hw
    have hmax1 : max 0 (h - 0) = h := by simpa using hh
    have hmax2 : max 0 (item.weight / rw * w - 0) = item.weight / rw * w := by
      simpa using hrw'
    refine ⟨?_, ?_, ?_⟩
    · simp only [layoutRowGo, if_false, Bool.false_eq_true, List.map_cons, List.sum_cons,
        ihsum, sumWeight_cons, hmax1, hmax2, rectArea]
      ring
    · intro r hr
      simp only [layoutRowGo, if_false, Bool.false_eq_true, List.mem_cons, hmax1, hmax2] at hr
      rcases hr with rfl | hr
      · refine ⟨by ring, rfl, hrw', by simp [zero_div], ?_⟩
        have : 0 ≤ sumWeight rest / rw * w := mul_nonneg hrest hw
        simp only [sumWeight_cons]
        have : (item.weight + sumWeight rest) / rw * w
            = item.weight / rw * w + sumWeight rest / rw * w := by ring
        rw [this]
        linarith
      · obtain ⟨h1, h2, h3, h4, h5⟩ := ihmem r hr
        refine ⟨h1, h2, h3, by linarith, ?_⟩
        simp only [sumWeight_cons]
        have : (item.weight + sumWeight rest) / rw * w
            = item.weight / rw * w + sumWeight rest / rw * w := by ring
        rw [this]
        linarith
    · simp only [layoutRowGo, if_false, Bool.false_eq_true, hmax1, hmax2, List.pairwise_cons]
      refine ⟨?_, ihpw⟩
      intro r hr
      obtain ⟨_, _, _, h4, _⟩ := ihmem r hr
      intro hov
      obtain ⟨_, hov2, _, _⟩ := hov
      simp only at hov2
      linarith

/-- `layoutRow` with `gap = 0` exactly tiles its strip: positive-weight rows
produce rectangles inside the strip, pairwise non-overlapping, with areas
summing to the strip's area. -/
theorem layoutRow_tiling (row : List HItem) (x y w h t : ℚ)
    (hne : row ≠ []) (hpos : ∀ i ∈ row, 0 < i.weight) (hw : 0 ≤ w) (hh : 0 ≤ h) :
    (((layoutRow row x y w h t 0).map rectArea).sum = w * h) ∧
    (∀ r ∈ layoutRow row x y w h t 0, inRegion r x y w h) ∧
    (layoutRow row x y w h t 0).Pairwise (fun a b => ¬ overlaps a b) := by
  have hrw : 0 < sumWeight row := sumWeight_pos hne hpos
  have hone : sumWeight row / sumWeight row = 1 := div_self (ne_of_gt hrw)
  have hwt : ∀ i ∈ row, 0 ≤ i.weight := fun i hi => le_of_lt (hpos i hi)
  rw [layoutRow, if_neg hne]
  rcases le_or_lt h w with hwide | htall
  · have hdec : (decide (w ≥ h)) = true := by simpa using hwide
    rw [hdec]
    obtain ⟨hsum, hmem, hpw⟩ :=
      layoutRowGo_wide (sumWeight row) x y w h hrw hw hh row 0 hwt
    refine ⟨by rw [hsum, hone]; ring, ?_, hpw⟩
    intro r hr
    obtain ⟨h1, h2, h3, h4, h5⟩ := hmem r hr
    rw [hone] at h5
    exact ⟨le_of_eq h1.symm, by rw [h1, h2], by linarith, by linarith [h5], by rw [h2]; exact hw, h3⟩
  · have hdec : (decide (w ≥ h)) = false := by simpa using htall
    rw [hdec]
    obtain ⟨hsum, hmem, hpw⟩ :=
      layoutRowGo_tall (sumWeight row) x y w h hrw hw hh row 0 hwt
    refine ⟨by rw [hsum, hone]; ring, ?_, hpw⟩
    intro r hr
    obtain ⟨h1, h2, h3, h4, h5⟩ := hmem r hr
    rw [hone] at h5
    exact ⟨by linarith, by linarith [h5], le_of_eq h1.symm, by rw [h1, h2], h3, by rw [h2]; exact hh⟩

/-! ### Unfolding equations for `squarify` (well-founded recursion) -/

theorem squarify_nil (row : List HItem) (x y w h t g : ℚ) :
    squarify [] row x y w h t g = layoutRow row x y w h t g := by
  rw [squarify]

theorem squarify_append (c : HItem) (cs row : List HItem) (x y w h t g : ℚ)
    (hcond : row = [] ∨ worst (row ++ [c]) w h (w*h) t ≤ worst row w h (w*h) t) :
    squarify (c :: cs) row x y w h t g = squarify cs (row ++ [c]) x y w h t g := by
  rw [squarify, dif_pos hcond]

theorem squarify_flush_wide (c : HItem) (cs row : List HItem) (x y w h t g : ℚ)
    (hcond : ¬(row = [] ∨ worst (row ++ [c]) w h (w*h) t ≤ worst row w h (w*h) t))
    (hw : w ≥ h) :
    squarify (c :: cs) row x y w h t g =
      layoutRow row x y (sumWeight row / t * w) h t g ++
        squarify (c :: cs) [] (x + sumWeight row / t * w) y (w - sumWeight row / t * w) h
          (t - sumWeight row) g := by
  rw [squarify, dif_neg hcond, if_pos hw]

theorem squarify_flush_tall (c : HItem) (cs row : List HItem) (x y w h t g : ℚ)
    (hcond : ¬(row = [] ∨ worst (row ++ [c]) w h (w*h) t ≤ worst row w h (w*h) t))
    (hw : ¬ w ≥ h) :
    squarify (c :: cs) row x y w h t g =
      layoutRow row x y w (sumWeight row / t * h) t g ++
        squarify (c :: cs) [] x (y + sumWeight row / t * h) w (h - sumWeight row / t * h)
          (t - sumWeight row) g := by
  rw [squarify, dif_neg hcond, if_neg hw]

/-! ### Which items appear in the output -/

theorem layoutRowGo_items (rw : ℚ) (isWide : Bool) (x y w h gap : ℚ) :
    ∀ (offset : ℚ) (row : List HItem),
      (layoutRowGo rw isWide x y w h gap offset row).map (·.item) = row
  | _, [] => by simp [layoutRowGo]
  | offset, item :: rest => by
    simp only [layoutRowGo, List.map_cons, List.cons.injEq]
    exact ⟨trivial, layoutRowGo_items rw isWide x y w h gap _ rest⟩

/-- The strip emits exactly its row's items, in order. -/
theorem layoutRow_items (row : List HItem) (x y w h t gap : ℚ) :
    (layoutRow row x y w h t gap).map (·.item) = row := by
  rw [layoutRow]
  split
  · simp_all
  · exact layoutRowGo_items _ _ x y w h gap 0 row

/-- `squarify` emits exactly the items `row ++ children`, in order: no item is
dropped, duplicated, or reordered relative to the (sorted) input. -/
theorem squarify_items (children row : List HItem) (x y w h t gap : ℚ) :
    (squarify children row x y w h t gap).map (·.item) = row ++ children := by
  induction children, row, x, y, w, h, t, gap using squarify.induct with
  | case1 row x y w h t gap =>
    rw [squarify_nil]
    simp [layoutRow_items]
  | case2 row x y w h t gap c cs area newRow hcond ih =>
    rw [squarify_append c cs row x y w h t gap hcond, ih]
    simp [newRow]
  | case3 row x y w h t gap c cs area newRow hcond rowWeight fraction hw rowW ih =>
    rw [squarify_flush_wide c cs row x y w h t gap hcond hw]
    simp only [List.map_append, layoutRow_items, ih]
    simp
  | case4 row x y w h t gap c cs area newRow hcond rowWeight fraction hw rowH ih =>
    rw [squarify_flush_tall c cs row x y w h t gap hcond hw]
    simp only [List.map_append, layoutRow_items, ih]
    simp

/-! ### The tiling invariant of `squarify` -/

theorem sumWeight_perm {l₁ l₂ : List HItem} (h : l₁.Perm l₂) :
    sumWeight l₁ = sumWeight l₂ := by
  unfold sumWeight
  exact (h.map (·.weight)).sum_eq

/-- Main invariant: on a row/children state whose weights are all positive,
with `totalArea` the total remaining weight, `squarify` (at `gap = 0`) tiles
the remaining region exactly: areas sum to `w * h`, every rectangle lies in
the region, and no two rectangles overlap. -/
theorem squarify_tiling :
    ∀ (children row : List HItem) (x y w h t gap : ℚ),
      gap = 0 →
      (∀ i ∈ children ++ row, 0 < i.weight) →
      children ++ row ≠ [] →
      t = sumWeight children + sumWeight row →
      0 ≤ w → 0 ≤ h →
      ((squarify children row x y w h t gap).map rectArea).sum = w * h ∧
      (∀ r ∈ squarify children row x y w h t gap, inRegion r x y w h) ∧
      (squarify children row x y w h t gap).Pairwise (fun a b => ¬ overlaps a b) := by
  intro children row x y w h t gap
  induction children, row, x, y, w, h, t, gap using squarify.induct with
  | case1 row x y w h t gap =>
    intro hgap hpos hne ht hw hh
    subst hgap
    rw [squarify_nil]
    have hne' : row ≠ [] := by simpa using hne
    have hpos' : ∀ i ∈ row, 0 < i.weight := fun i hi => hpos i (by simp [hi])
    exact layoutRow_tiling row x y w h t hne' hpos' hw hh
  | case2 row x y w h t gap c cs area newRow hcond ih =>
    intro hgap hpos hne ht hw hh
    rw [squarify_append c cs row x y w h t gap hcond]
    apply ih hgap
    · intro i hi
      apply hpos i
      simp only [newRow, List.mem_append, List.mem_cons] at hi ⊢
      tauto
    · simp [newRow]
    · rw [ht]
      simp only [newRow, sumWeight_append, sumWeight_cons, sumWeight_nil]
      ring
    · exact hw
    · exact hh
  | case3 row x y w h t gap c cs area newRow hcond rowWeight fraction hw rowW ih =>
    intro hgap hpos hne ht hw0 hh0
    subst hgap
    simp only [rowW, fraction, rowWeight] at ih
    have hrowne : row ≠ [] := by
      intro hrow
      exact hcond (Or.inl hrow)
    have hrowpos : ∀ i ∈ row, 0 < i.weight := fun i hi => hpos i (by simp [hi])
    have hcspos : ∀ i ∈ c :: cs, 0 < i.weight := fun i hi => hpos i (by simp at hi ⊢; tauto)
    have hrw : 0 < sumWeight row := sumWeight_pos hrowne hrowpos
    have hcs : 0 < sumWeight (c :: cs) := sumWeight_pos (by simp) hcspos
    have htpos : 0 < t := by rw [ht]; linarith
    have hfrac0 : 0 < sumWeight row / t := div_pos hrw htpos
    have hfrac1 : sumWeight row / t < 1 := by
      rw [div_lt_one htpos, ht]
      linarith
    have hrowW0 : 0 ≤ sumWeight row / t * w := mul_nonneg (le_of_lt hfrac0) hw0
    have hrowWle : sumWeight row / t * w ≤ w := by nlinarith
    obtain ⟨lsum, lmem, lpw⟩ :=
      layoutRow_tiling row x y (sumWeight row / t * w) h t hrowne hrowpos hrowW0 hh0
    obtain ⟨rsum, rmem, rpw⟩ := ih trivial
      (fun i hi => hpos i (by simp at hi ⊢; tauto))
      (by simp)
      (by rw [ht]; simp)
      (by linarith) hh0
    rw [squarify_flush_wide c cs row x y w h t 0 hcond hw]
    refine ⟨?_, ?_, ?_⟩
    · rw [List.map_append, List.sum_append, lsum, rsum]
      ring
    · intro r hr
      rcases List.mem_append.mp hr with hr | hr
      · obtain ⟨h1, h2, h3, h4, h5, h6⟩ := lmem r hr
        exact ⟨h1, by linarith, h3, h4, h5, h6⟩
      · obtain ⟨h1, h2, h3, h4, h5, h6⟩ := rmem r hr
        exact ⟨by linarith, by linarith, h3, h4, h5, h6⟩
    · rw [List.pairwise_append]
      refine ⟨lpw, rpw, ?_⟩
      intro a ha b hb hov
      obtain ⟨_, h2a, _, _, _, _⟩ := lmem a ha
      obtain ⟨h1b, _, _, _, _, _⟩ := rmem b hb
      obtain ⟨_, o2, _, _⟩ := hov
      linarith
  | case4 row x y w h t gap c cs area newRow hcond rowWeight fraction hw rowH ih =>
    intro hgap hpos hne ht hw0 hh0
    subst hgap
    simp only [rowH, fraction, rowWeight] at ih
    have hrowne : row ≠ [] := by
      intro hrow
      exact hcond (Or.inl hrow)
    have hrowpos : ∀ i ∈ row, 0 < i.weight := fun i hi => hpos i (by simp [hi])
    have hcspos : ∀ i ∈ c :: cs, 0 < i.weight := fun i hi => hpos i (by simp at hi ⊢; tauto)
    have hrw : 0 < sumWeight row := sumWeight_pos hrowne hrowpos
    have hcs : 0 < sumWeight (c :: cs) := sumWeight_pos (by simp) hcspos
    have htpos : 0 < t := by rw [ht]; linarith
    have hfrac0 : 0 < sumWeight row / t := div_pos hrw htpos
    have hfrac1 : sumWeight row / t < 1 := by
      rw [div_lt_one htpos, ht]
      linarith
    have hrowH0 : 0 ≤ sumWeight row / t * h := mul_nonneg (le_of_lt hfrac0) hh0
    have hrowHle : sumWeight row / t * h ≤ h := by nlinarith
    obtain ⟨lsum, lmem, lpw⟩ :=
      layoutRow_tiling row x y w (sumWeight row / t * h) t hrowne hrowpos hw0 hrowH0
    obtain ⟨rsum, rmem, rpw⟩ := ih trivial
      (fun i hi => hpos i (by simp at hi ⊢; tauto))
      (by simp)
      (by rw [ht]; simp)
      hw0 (by linarith)
    rw [squarify_flush_tall c cs row x y w h t 0 hcond hw]
    refine ⟨?_, ?_, ?_⟩
    · rw [List.map_append, List.sum_append, lsum, rsum]
      ring
    · intro r hr
      rcases List.mem_append.mp hr with hr | hr
      · obtain ⟨h1, h2, h3, h4, h5, h6⟩ := lmem r hr
        exact ⟨h1, h2, h3, by linarith, h5, h6⟩
      · obtain ⟨h1, h2, h3, h4, h5, h6⟩ := rmem r hr
        exact ⟨h1, h2, by linarith, by linarith, h5, h6⟩
    · rw [List.pairwise_append]
      refine ⟨lpw, rpw, ?_⟩
      intro a ha b hb hov
      obtain ⟨_, _, _, h4a, _, _⟩ := lmem a ha
      obtain ⟨_, _, h3b, _, _, _⟩ := rmem b hb
      obtain ⟨_, _, _, o4⟩ := hov
      linarith

theorem sortDesc_ne_nil {items : List HItem} (hne : items ≠ []) :
    sortDesc items ≠ [] := by
  intro hs
  apply hne
  have hlen := (sortDesc_perm items).length_eq
  rw [hs] at hlen
  exact List.length_eq_zero.mp hlen.symm

/-- C1: for every non-empty item list with all weights positive and every
region with non-negative extents, `layoutTreemap` at `gap = 0` produces
rectangles whose areas sum exactly (the `ℚ` idealisation of "within
floating-point tolerance") to the region's area, and no two of the output
rectangles overlap. -/
theorem treemap_tiling (items : List HItem) (x y w h : ℚ)
    (hne : items ≠ []) (hpos : ∀ i ∈ items, 0 < i.weight)
    (hw : 0 ≤ w) (hh : 0 ≤ h) :
    ((layoutTreemap items x y w h 0).map rectArea).sum = w * h ∧
    (layoutTreemap items x y w h 0).Pairwise (fun a b => ¬ overlaps a b) := by
  have hperm := sortDesc_perm items
  have hspos : ∀ i ∈ sortDesc items, 0 < i.weight :=
    fun i hi => hpos i (hperm.mem_iff.mp hi)
  have hsne : sortDesc items ≠ [] := sortDesc_ne_nil hne
  have htot : 0 < sumWeight (sortDesc items) := sumWeight_pos hsne hspos
  have heq : layoutTreemap items x y w h 0 =
      squarify (sortDesc items) [] x y w h (sumWeight (sortDesc items)) 0 := by
    rw [layoutTreemap, if_neg hne]
    exact if_neg (not_le.mpr htot)
  rw [heq]
  obtain ⟨hsum, _, hpw⟩ := squarify_tiling (sortDesc items) [] x y w h
    (sumWeight (sortDesc items)) 0 rfl
    (by simpa using hspos) (by simpa using hsne) (by simp) hw hh
  exact ⟨hsum, hpw⟩

/-- Witness for `treemap_tiling`: the spec's own end-to-end scenario, weights
50/30/20 in a 100×100 region. -/
theorem treemap_tiling_witness :
    (([⟨50,0⟩, ⟨30,1⟩, ⟨20,2⟩] : List HItem) ≠ [] ∧
      (∀ i ∈ ([⟨50,0⟩, ⟨30,1⟩, ⟨20,2⟩] : List HItem), 0 < i.weight) ∧
      (0:ℚ) ≤ 100) ∧
    ((layoutTreemap [⟨50,0⟩, ⟨30,1⟩, ⟨20,2⟩] 0 0 100 100 0).map rectArea).sum = 100 * 100 ∧
    (layoutTreemap [⟨50,0⟩, ⟨30,1⟩, ⟨20,2⟩] 0 0 100 100 0).Pairwise
      (fun a b => ¬ overlaps a b) :=
  ⟨⟨by simp, by intro i hi; fin_cases hi <;> norm_num, by norm_num⟩,
    treemap_tiling [⟨50,0⟩, ⟨30,1⟩, ⟨20,2⟩] 0 0 100 100 (by simp)
      (by intro i hi; fin_cases hi <;> norm_num) (by norm_num) (by norm_num)⟩

/-- C2 (amended): `layoutTreemap` performs no per-item weight filtering.  It
returns `[]` exactly when the item list is empty or the *total* weight is
non-positive; whenever the total weight is positive, *every* item — items
with non-positive weight included — receives an output rectangle, in sorted
order. -/
theorem treemap_no_item_filtering (items : List HItem) (x y w h gap : ℚ) :
    (sumWeight items ≤ 0 → layoutTreemap items x y w h gap = []) ∧
    (items ≠ [] → 0 < sumWeight items →
      (layoutTreemap items x y w h gap).map (·.item) = sortDesc items) := by
  have hsum : sumWeight (sortDesc items) = sumWeight items :=
    sumWeight_perm (sortDesc_perm items)
  constructor
  · intro hle
    rw [layoutTreemap]
    by_cases hne : items = []
    · rw [if_pos hne]
    · rw [if_neg hne]
      exact if_pos (by rw [hsum]; exact hle)
  · intro hne hpos
    have heq : layoutTreemap items x y w h gap =
        squarify (sortDesc items) [] x y w h (sumWeight (sortDesc items)) gap := by
      rw [layoutTreemap, if_neg hne]
      exact if_neg (not_le.mpr (by rw [hsum]; exact hpos))
    rw [heq, squarify_items]
    simp

/-- Witness for `treemap_no_item_filtering`, at weights `[2, -1]` (total `1 > 0`):
the layout emits a rectangle for every item, the non-positive one included. -/
theorem treemap_no_item_filtering_witness :
    (0:ℚ) < sumWeight [⟨2,0⟩, ⟨-1,1⟩] ∧
    (layoutTreemap [⟨2,0⟩, ⟨-1,1⟩] 0 0 100 100 0).map (·.item) =
      sortDesc [⟨2,0⟩, ⟨-1,1⟩] :=
  ⟨by norm_num [sumWeight],
    (treemap_no_item_filtering [⟨2,0⟩, ⟨-1,1⟩] 0 0 100 100 0).2 (by simp)
      (by norm_num [sumWeight])⟩

/-- C2 counterexample: the claim "an item with weight ≤ 0 never appears in
the output" is false.  With weights `[2, -1]` the total is `1 > 0`, so no
item is excluded: the output of `layoutTreemap` contains the weight `-1`
item (its rectangle is the second one, with clamped height `0`). -/
theorem treemap_item_filtering_counterexample :
    (layoutTreemap [⟨2,0⟩, ⟨-1,1⟩] 0 0 100 100 0).map (·.item) =
      [⟨2,0⟩, ⟨-1,1⟩] ∧ (-1:ℚ) ≤ 0 := by
  constructor
  · have hs : sortDesc [⟨2,0⟩, ⟨-1,1⟩] = [⟨2,0⟩, ⟨-1,1⟩] := by
      norm_num [sortDesc, List.mergeSort]
    have heq : layoutTreemap [⟨2,0⟩, ⟨-1,1⟩] 0 0 100 100 0 =
        squarify (sortDesc [⟨2,0⟩, ⟨-1,1⟩]) [] 0 0 100 100
          (sumWeight (sortDesc [⟨2,0⟩, ⟨-1,1⟩])) 0 := by
      rw [layoutTreemap, if_neg (by simp)]
      refine if_neg ?_
      rw [hs]
      norm_num [sumWeight]
    rw [heq, squarify_items, hs]
    simp
  · norm_num

/-! ### Placement of items inside a flushed strip -/

theorem layoutRowGo_wide_eq (rw x y w h gap : ℚ) :
    ∀ (row : List HItem) (offset : ℚ),
      layoutRowGo rw true x y w h gap offset row =
        (List.range row.length).map (fun k =>
          ⟨x + gap / 2,
           y + offset + sumWeight (row.take k) / rw * h + gap / 2,
           max 0 (w - gap),
           max 0 ((row.getD k ⟨0, 0⟩).weight / rw * h - gap),
           row.getD k ⟨0, 0⟩⟩)
  | [], offset => by simp [layoutRowGo]
  | item :: rest, offset => by
    have ih := layoutRowGo_wide_eq rw x y w h gap rest (offset + item.weight / rw * h)
    simp only [layoutRowGo, if_true, ih, List.length_cons, List.range_succ_eq_map,
      List.map_cons, List.map_map, List.take_zero, sumWeight_nil, List.getD_cons_zero,
      List.cons.injEq]
    constructor
    · congr 1
      all_goals first | rfl | (simp; try ring)
    · apply List.map_congr_left
      intro k _
      simp only [Function.comp_apply, List.take_succ_cons, sumWeight_cons,
        List.getD_cons_succ]
      congr 1
      all_goals first | rfl | ring

theorem layoutRowGo_tall_eq (rw x y w h gap : ℚ) :
    ∀ (row : List HItem) (offset : ℚ),
      layoutRowGo rw false x y w h gap offset row =
        (List.range row.length).map (fun k =>
          ⟨x + offset + sumWeight (row.take k) / rw * w + gap / 2,
           y + gap / 2,
           max 0 ((row.getD k ⟨0, 0⟩).weight / rw * w - gap),
           max 0 (h - gap),
           row.getD k ⟨0, 0⟩⟩)
  | [], offset => by simp [layoutRowGo]
  | item :: rest, offset => by
    have ih := layoutRowGo_tall_eq rw x y w h gap rest (offset + item.weight / rw * w)
    simp only [layoutRowGo, if_false, Bool.false_eq_true, ih, List.length_cons,
      List.range_succ_eq_map, List.map_cons, List.map_map, List.take_zero, sumWeight_nil,
      List.getD_cons_zero, List.cons.injEq]
    constructor
    · congr 1
      all_goals first | rfl | (simp; try ring)
    · apply List.map_congr_left
      intro k _
      simp only [Function.comp_apply, List.take_succ_cons, sumWeight_cons,
        List.getD_cons_succ]
      congr 1
      all_goals first | rfl | ring

/-- In a strip that is at least as wide as tall, the items are laid out
stacked top-to-bottom (increasing `y`, each spanning the strip's full
width), in row order. -/
theorem layoutRow_wide_eq (row : List HItem) (x y w h t gap : ℚ)
    (hne : row ≠ []) (hwide : w ≥ h) :
    layoutRow row x y w h t gap =
      (List.range row.length).map (fun k =>
        ⟨x + gap / 2,
         y + sumWeight (row.take k) / sumWeight row * h + gap / 2,
         max 0 (w - gap),
         max 0 ((row.getD k ⟨0, 0⟩).weight / sumWeight row * h - gap),
         row.getD k ⟨0, 0⟩⟩) := by
  rw [layoutRow, if_neg hne]
  have hdec : (decide (w ≥ h)) = true := by simpa using hwide
  rw [hdec, layoutRowGo_wide_eq]
  apply List.map_congr_left
  intro k _
  rw [LayoutRect.mk.injEq]
  exact ⟨rfl, by ring, rfl, rfl, rfl⟩

/-- In a strip that is strictly taller than wide, the items are laid out
side-by-side left-to-right (increasing `x`, each spanning the strip's full
height), in row order. -/
theorem layoutRow_tall_eq (row : List HItem) (x y w h t gap : ℚ)
    (hne : row ≠ []) (htall : ¬ w ≥ h) :
    layoutRow row x y w h t gap =
      (List.range row.length).map (fun k =>
        ⟨x + sumWeight (row.take k) / sumWeight row * w + gap / 2,
         y + gap / 2,
         max 0 ((row.getD k ⟨0, 0⟩).weight / sumWeight row * w - gap),
         max 0 (h - gap),
         row.getD k ⟨0, 0⟩⟩) := by
  rw [layoutRow, if_neg hne]
  have hdec : (decide (w ≥ h)) = false := by simpa using htall
  rw [hdec, layoutRowGo_tall_eq]
  apply List.map_congr_left
  intro k _
  rw [LayoutRect.mk.injEq]
  exact ⟨by ring, rfl, rfl, rfl, rfl⟩

/-- C3 (amended): when `squarify` flushes a row out of a *wide* remaining
region (`w ≥ h`) the flushed strip is **vertical** — it spans the region's
full height `h` and occupies the x-band `[x, x + fraction·w]` — and the
remaining region continues to its right (successive strips sit
side-by-side); a *tall* region symmetrically gets a **horizontal** strip
spanning the full width with the remainder below it (strips stacked
top-to-bottom).  Within a flushed strip the items are placed contiguously
along the strip's *shorter* axis, each spanning the strip's full other
dimension, in their given (weight-sorted) order: stacked top-to-bottom when
the strip is wide, side-by-side when the strip is tall. -/
theorem strip_orientation :
    (∀ (c : HItem) (cs row : List HItem) (x y w h t gap : ℚ),
      ¬(row = [] ∨ worst (row ++ [c]) w h (w*h) t ≤ worst row w h (w*h) t) →
      w ≥ h →
      squarify (c :: cs) row x y w h t gap =
        layoutRow row x y (sumWeight row / t * w) h t gap ++
          squarify (c :: cs) [] (x + sumWeight row / t * w) y (w - sumWeight row / t * w) h
            (t - sumWeight row) gap) ∧
    (∀ (c : HItem) (cs row : List HItem) (x y w h t gap : ℚ),
      ¬(row = [] ∨ worst (row ++ [c]) w h (w*h) t ≤ worst row w h (w*h) t) →
      ¬ w ≥ h →
      squarify (c :: cs) row x y w h t gap =
        layoutRow row x y w (sumWeight row / t * h) t gap ++
          squarify (c :: cs) [] x (y + sumWeight row / t * h) w (h - sumWeight row / t * h)
            (t - sumWeight row) gap) ∧
    (∀ (row : List HItem) (x y w h t gap : ℚ), row ≠ [] → w ≥ h →
      layoutRow row x y w h t gap =
        (List.range row.length).map (fun k =>
          ⟨x + gap / 2,
           y + sumWeight (row.take k) / sumWeight row * h + gap / 2,
           max 0 (w - gap),
           max 0 ((row.getD k ⟨0, 0⟩).weight / sumWeight row * h - gap),
           row.getD k ⟨0, 0⟩⟩)) ∧
    (∀ (row : List HItem) (x y w h t gap : ℚ), row ≠ [] → ¬ w ≥ h →
      layoutRow row x y w h t gap =
        (List.range row.length).map (fun k =>
          ⟨x + sumWeight (row.take k) / sumWeight row * w + gap / 2,
           y + gap / 2,
           max 0 ((row.getD k ⟨0, 0⟩).weight / sumWeight row * w - gap),
           max 0 (h - gap),
           row.getD k ⟨0, 0⟩⟩)) :=
  ⟨fun c cs row x y w h t gap hcond hw =>
      squarify_flush_wide c cs row x y w h t gap hcond hw,
    fun c cs row x y w h t gap hcond hw =>
      squarify_flush_tall c cs row x y w h t gap hcond hw,
    fun row x y w h t gap hne hw => layoutRow_wide_eq row x y w h t gap hne hw,
    fun row x y w h t gap hne hw => layoutRow_tall_eq row x y w h t gap hne hw⟩

/-- Witness for `strip_orientation`: the flush step taken while laying out
weights `[8, 2]` in the wide region `100 × 50`, and the in-strip placement
for a two-item strip. -/
theorem strip_orientation_witness :
    (squarify [⟨2,1⟩] [⟨8,0⟩] 0 0 100 50 10 0 =
      layoutRow [⟨8,0⟩] 0 0 (sumWeight [⟨8,0⟩] / 10 * 100) 50 10 0 ++
        squarify [⟨2,1⟩] [] (0 + sumWeight [⟨8,0⟩] / 10 * 100) 0
          (100 - sumWeight [⟨8,0⟩] / 10 * 100) 50 (10 - sumWeight [⟨8,0⟩]) 0) ∧
    (layoutRow [⟨3,0⟩, ⟨1,1⟩] 0 0 40 20 4 0 =
      (List.range 2).map (fun k =>
        ⟨0 + 0 / 2,
         0 + sumWeight (([⟨3,0⟩, ⟨1,1⟩] : List HItem).take k) / sumWeight [⟨3,0⟩, ⟨1,1⟩] * 20
           + 0 / 2,
         max 0 (40 - 0),
         max 0 ((([⟨3,0⟩, ⟨1,1⟩] : List HItem).getD k ⟨0, 0⟩).weight
           / sumWeight [⟨3,0⟩, ⟨1,1⟩] * 20 - 0),
         ([⟨3,0⟩, ⟨1,1⟩] : List HItem).getD k ⟨0, 0⟩⟩)) :=
  ⟨strip_orientation.1 ⟨2,1⟩ [] [⟨8,0⟩] 0 0 100 50 10 0
      (by norm_num [worst, sumWeight, WithTop.coe_le_coe]) (by norm_num),
    strip_orientation.2.2.1 [⟨3,0⟩, ⟨1,1⟩] 0 0 40 20 4 0 (by simp) (by norm_num)⟩

/-- C3 counterexample: the claim's orientations are reversed.  In the *wide*
region `100 × 50` with weights `[8, 2]`, the flushed strip is not a
horizontal full-width band: the output is two full-height rectangles placed
side-by-side, the flushed one of width `80 ≠ 100`. -/
theorem strip_orientation_counterexample :
    (100:ℚ) ≥ 50 ∧
    layoutTreemap [⟨8,0⟩, ⟨2,1⟩] 0 0 100 50 0 =
      [⟨0, 0, 80, 50, ⟨8,0⟩⟩, ⟨80, 0, 20, 50, ⟨2,1⟩⟩] ∧
    (80:ℚ) ≠ 100 := by
  refine ⟨by norm_num, ?_, by norm_num⟩
  have hs : sortDesc [⟨8,0⟩, ⟨2,1⟩] = [⟨8,0⟩, ⟨2,1⟩] := by
    norm_num [sortDesc, List.mergeSort]
  have heq : layoutTreemap [⟨8,0⟩, ⟨2,1⟩] 0 0 100 50 0 =
      squarify (sortDesc [⟨8,0⟩, ⟨2,1⟩]) [] 0 0 100 50
        (sumWeight (sortDesc [⟨8,0⟩, ⟨2,1⟩])) 0 := by
    rw [layoutTreemap, if_neg (by simp)]
    exact if_neg (by rw [hs]; norm_num [sumWeight])
  rw [heq, hs, show sumWeight [(⟨8,0⟩ : HItem), ⟨2,1⟩] = 10 from by norm_num [sumWeight]]
  rw [squarify_append _ _ _ _ _ _ _ _ _ (Or.inl rfl)]
  rw [squarify_flush_wide _ _ _ _ _ _ _ _ _
    (by norm_num [worst, sumWeight, WithTop.coe_le_coe]) (by norm_num)]
  rw [squarify_append _ _ _ _ _ _ _ _ _ (Or.inl rfl)]
  rw [squarify_nil]
  norm_num [layoutRow, layoutRowGo, sumWeight]

/-! ## Animation scheduler (`src/charts/BarChart.ts`, `src/charts/Sparkline.ts`)

The four entries of the `EASINGS` table are transcendental for `spring`, so
the easing layer lives in `ℝ`; the clamping arithmetic of `barProgress` /
`sliceProgress` stays in exact `ℚ`.  The JS `Infinity` sentinel that
`drawStatic` passes for the final frame is the `Elapsed.inf` constructor. -/

inductive EasingId where
  | linear
  | easeOut
  | easeInOut
  | spring
  deriving DecidableEq, Repr

/-- The `EASINGS` record of `BarChart.ts`:
`linear: t`, `easeOut: 1-(1-t)^3`,
`easeInOut: t < 0.5 ? 4t³ : 1-(-2t+2)³/2`, `spring: 1-e^(-6t)·cos(6.5t)`. -/
noncomputable def EASINGS : EasingId → ℝ → ℝ
  | .linear => fun t => t
  | .easeOut => fun t => 1 - (1 - t)^3
  | .easeInOut => fun t => if t < 0.5 then 4*t*t*t else 1 - (-2*t + 2)^3/2
  | .spring => fun t => 1 - Real.exp (-6*t) * Real.cos (6.5*t)

/-- The result of `resolveAnim`: an easing id stands for the looked-up easing
function. -/
structure ResolvedAnim where
  enabled : Bool
  duration : ℚ
  easing : EasingId
  delay : ℚ
  style : String

/-- A JS `number` elapsed time that is either finite or the `Infinity`
sentinel. -/
inductive Elapsed where
  | fin (t : ℚ)
  | inf
  deriving DecidableEq

/-- `barProgress(catIdx, elapsed)` from `BarChart.ts`:
`if (!anim.enabled || elapsed === Infinity) return 1;` then
`easing(min(1, max(0, elapsed - delay*catIdx) / duration))`. -/
noncomputable def barProgress (anim : ResolvedAnim) (catIdx : ℕ) (elapsed : Elapsed) : ℝ :=
  match elapsed with
  | .inf => 1
  | .fin e =>
    if anim.enabled = false then 1
    else
      let barElapsed : ℚ := max 0 (e - anim.delay * catIdx)
      let raw : ℚ := min 1 (barElapsed / anim.duration)
      EASINGS anim.easing (raw : ℝ)

/-- `sliceProgress(sliceIdx, elapsed)` from `Sparkline.ts` — textually the
same computation as `barProgress`. -/
noncomputable def sliceProgress (anim : ResolvedAnim) (sliceIdx : ℕ) (elapsed : Elapsed) : ℝ :=
  match elapsed with
  | .inf => 1
  | .fin e =>
    if anim.enabled = false then 1
    else
      let sliceElapsed : ℚ := max 0 (e - anim.delay * sliceIdx)
      let raw : ℚ := min 1 (sliceElapsed / anim.duration)
      EASINGS anim.easing (raw : ℝ)

/-- `totalTime` from `tick()`:
`anim.duration + anim.delay * Math.max(0, numBars - 1)`. -/
def totalTime (anim : ResolvedAnim) (numBars : ℕ) : ℚ :=
  anim.duration + anim.delay * max 0 ((numBars : ℚ) - 1)

/-- `globalDone` from `tick()`: `elapsed >= totalTime`. -/
def globalDone (anim : ResolvedAnim) (numBars : ℕ) (elapsed : ℚ) : Bool :=
  decide (elapsed ≥ totalTime anim numBars)

/-- The spec's "un-clamped progress argument" of item `i`:
`(elapsed - delayMs*i) / durationMs`, the quantity that `barProgress` clamps
into `[0, 1]`. -/
def unclampedArg (anim : ResolvedAnim) (i : ℕ) (elapsed : ℚ) : ℚ :=
  (elapsed - anim.delay * i) / anim.duration

theorem barProgress_fin (a : ResolvedAnim) (i : ℕ) (e : ℚ) (hen : a.enabled = true) :
    barProgress a i (.fin e)
      = EASINGS a.easing ((min 1 (max 0 (e - a.delay * i) / a.duration) : ℚ) : ℝ) := by
  rw [barProgress, if_neg (by simp [hen])]

theorem sliceProgress_fin (a : ResolvedAnim) (i : ℕ) (e : ℚ) (hen : a.enabled = true) :
    sliceProgress a i (.fin e)
      = EASINGS a.easing ((min 1 (max 0 (e - a.delay * i) / a.duration) : ℚ) : ℝ) := by
  rw [sliceProgress, if_neg (by simp [hen])]

theorem max_zero_div {z d : ℚ} (hd : 0 < d) : max 0 z / d = max 0 (z / d) := by
  rcases le_total z 0 with h | h
  · rw [max_eq_left h, zero_div, max_eq_left (div_nonpos_of_nonpos_of_nonneg h hd.le)]
  · rw [max_eq_right h, max_eq_right (div_nonneg h hd.le)]

/-- Every easing of the table maps `0` to exactly `0`. -/
theorem EASINGS_zero : ∀ id : EasingId, EASINGS id 0 = 0
  | .linear => rfl
  | .easeOut => by norm_num [EASINGS]
  | .easeInOut => by norm_num [EASINGS]
  | .spring => by
    simp only [EASINGS, mul_zero, Real.exp_zero, Real.cos_zero, one_mul, sub_self]

/-- The three polynomial easings map `1` to exactly `1` (spring does not). -/
theorem EASINGS_one_of_ne_spring :
    ∀ id : EasingId, id ≠ .spring → EASINGS id 1 = 1
  | .linear, _ => rfl
  | .easeOut, _ => by norm_num [EASINGS]
  | .easeInOut, _ => by norm_num [EASINGS]
  | .spring, hs => absurd rfl hs

theorem cos_six_half_pos : 0 < Real.cos 6.5 := by
  have h1 : Real.pi < 3.15 := Real.pi_lt_d2
  have h2 : 3 < Real.pi := Real.pi_gt_three
  rw [← Real.cos_sub_two_pi 6.5]
  apply Real.cos_pos_of_mem_Ioo
  constructor
  · show -(Real.pi / 2) < 6.5 - 2 * Real.pi
    nlinarith
  · show 6.5 - 2 * Real.pi < Real.pi / 2
    nlinarith

theorem spring_at_one_ne_one : 1 - Real.exp (-6) * Real.cos 6.5 ≠ 1 := by
  have hexp : 0 < Real.exp (-6) := Real.exp_pos _
  have hcos := cos_six_half_pos
  intro h
  nlinarith

/-- C4: for every enabled animation, item index, and finite elapsed time,
`barProgress` (and `sliceProgress`) equals the easing applied to
`clamp((elapsed - delay·i) / duration, 0, 1)` (written
`min 1 (max 0 ·)`), and an item whose stagger offset has not yet elapsed
reports progress exactly `0` (never an undefined value). -/
theorem progress_formula (a : ResolvedAnim) (i : ℕ) (e : ℚ)
    (hen : a.enabled = true) (hdur : 0 < a.duration) :
    (barProgress a i (.fin e)
        = EASINGS a.easing ((min 1 (max 0 ((e - a.delay * i) / a.duration)) : ℚ) : ℝ) ∧
      sliceProgress a i (.fin e)
        = EASINGS a.easing ((min 1 (max 0 ((e - a.delay * i) / a.duration)) : ℚ) : ℝ)) ∧
    (e ≤ a.delay * i →
      barProgress a i (.fin e) = 0 ∧ sliceProgress a i (.fin e) = 0) := by
  have hdiv : max 0 (e - a.delay * i) / a.duration
      = max 0 ((e - a.delay * i) / a.duration) := max_zero_div hdur
  constructor
  · constructor
    · rw [barProgress_fin a i e hen, hdiv]
    · rw [sliceProgress_fin a i e hen, hdiv]
  · intro hle
    have hmax : max 0 (e - a.delay * i) = 0 := max_eq_left (by linarith)
    have hraw : min 1 (max 0 (e - a.delay * i) / a.duration) = 0 := by
      rw [hmax, zero_div]
      exact min_eq_right (by norm_num)
    constructor
    · rw [barProgress_fin a i e hen, hraw]
      exact_mod_cast EASINGS_zero a.easing
    · rw [sliceProgress_fin a i e hen, hraw]
      exact_mod_cast EASINGS_zero a.easing

/-- Witness for `progress_formula`: easeOut bars, 600 ms duration, 30 ms
stagger, item 2 at elapsed 30 ms (before its 60 ms offset). -/
theorem progress_formula_witness :
    ((⟨true, 600, .easeOut, 30, "grow"⟩ : ResolvedAnim).enabled = true ∧
      (0:ℚ) < 600 ∧ (30:ℚ) ≤ 30 * (2:ℕ)) ∧
    barProgress ⟨true, 600, .easeOut, 30, "grow"⟩ 2 (.fin 30) = 0 ∧
    sliceProgress ⟨true, 600, .easeOut, 30, "grow"⟩ 2 (.fin 30) = 0 :=
  ⟨⟨rfl, by norm_num, by norm_num⟩,
    (progress_formula ⟨true, 600, .easeOut, 30, "grow"⟩ 2 30 rfl (by norm_num)).2
      (by norm_num)⟩

/-- C5 (amended): progress at elapsed `0` is exactly `0` for all four
easings.  For finite elapsed at or beyond an item's completion time, the
reported progress is exactly `1` for `linear`/`easeOut`/`easeInOut`, but for
`spring` it is `1 - e⁻⁶·cos 6.5 ≠ 1`; the exactly-`1` value for spring is
reported only on the final frame, where `tick` passes the `Infinity`
sentinel (`Elapsed.inf`). -/
theorem progress_boundary :
    (∀ (a : ResolvedAnim) (i : ℕ), a.enabled = true → 0 < a.duration →
      0 ≤ a.delay → barProgress a i (.fin 0) = 0) ∧
    (∀ (a : ResolvedAnim) (i : ℕ) (e : ℚ), a.enabled = true → 0 < a.duration →
      a.easing ≠ .spring → a.duration + a.delay * i ≤ e →
      barProgress a i (.fin e) = 1) ∧
    (∀ (a : ResolvedAnim) (i : ℕ) (e : ℚ), a.enabled = true → 0 < a.duration →
      a.easing = .spring → a.duration + a.delay * i ≤ e →
      barProgress a i (.fin e) = 1 - Real.exp (-6) * Real.cos 6.5) ∧
    (1 - Real.exp (-6) * Real.cos 6.5 ≠ 1) ∧
    (∀ (a : ResolvedAnim) (i : ℕ), barProgress a i .inf = 1) := by
  have raw_one : ∀ (a : ResolvedAnim) (i : ℕ) (e : ℚ), 0 < a.duration →
      a.duration + a.delay * i ≤ e →
      min 1 (max 0 (e - a.delay * i) / a.duration) = 1 := by
    intro a i e hdur hle
    have h1 : a.duration ≤ e - a.delay * i := by linarith
    have h2 : max 0 (e - a.delay * i) = e - a.delay * i :=
      max_eq_right (by linarith)
    rw [h2]
    exact min_eq_left ((one_le_div hdur).mpr h1)
  refine ⟨?_, ?_, ?_, spring_at_one_ne_one, fun a i => rfl⟩
  · intro a i hen hdur hdel
    have hmax : max 0 ((0:ℚ) - a.delay * i) = 0 := by
      apply max_eq_left
      have : (0:ℚ) ≤ a.delay * i := mul_nonneg hdel (by positivity)
      linarith
    rw [barProgress_fin a i 0 hen, hmax, zero_div, min_eq_right (by norm_num)]
    exact_mod_cast EASINGS_zero a.easing
  · intro a i e hen hdur hns hle
    rw [barProgress_fin a i e hen, raw_one a i e hdur hle]
    exact_mod_cast EASINGS_one_of_ne_spring a.easing hns
  · intro a i e hen hdur hs hle
    rw [barProgress_fin a i e hen, raw_one a i e hdur hle, hs]
    norm_num [EASINGS]

/-- Witness for `progress_boundary` at concrete inputs: `easeInOut` with 600
ms duration and 30 ms stagger at elapsed `0` and (item 1) at elapsed 630;
and abstract spring at its completion time. -/
theorem progress_boundary_witness :
    barProgress ⟨true, 600, .easeInOut, 30, "grow"⟩ 0 (.fin 0) = 0 ∧
    barProgress ⟨true, 600, .easeInOut, 30, "grow"⟩ 1 (.fin 630) = 1 ∧
    barProgress ⟨true, 600, .spring, 30, "grow"⟩ 1 (.fin 630)
      = 1 - Real.exp (-6) * Real.cos 6.5 ∧
    barProgress ⟨true, 600, .spring, 30, "grow"⟩ 1 .inf = 1 :=
  ⟨progress_boundary.1 ⟨true, 600, .easeInOut, 30, "grow"⟩ 0 rfl (by norm_num)
      (by norm_num),
    progress_boundary.2.1 ⟨true, 600, .easeInOut, 30, "grow"⟩ 1 630 rfl (by norm_num)
      (by simp) (by norm_num),
    progress_boundary.2.2.1 ⟨true, 600, .spring, 30, "grow"⟩ 1 630 rfl (by norm_num)
      rfl (by norm_num),
    progress_boundary.2.2.2.2 ⟨true, 600, .spring, 30, "grow"⟩ 1⟩

/-- C5 counterexample: with the spring easing enabled (600 ms duration, no
stagger), at the finite elapsed time 600 ms — exactly the run's total
duration — the reported progress is `1 - e⁻⁶·cos 6.5`, which is *not*
exactly `1`.  The claim that every easing reports exactly `1` at or beyond
the total duration for finite elapsed times is false for spring. -/
theorem progress_boundary_counterexample :
    barProgress ⟨true, 600, .spring, 0, "grow"⟩ 0 (.fin 600) ≠ 1 := by
  rw [barProgress_fin _ _ _ rfl]
  rw [show min 1 (max 0 ((600:ℚ)
      - (⟨true, 600, .spring, 0, "grow"⟩ : ResolvedAnim).delay * (0:ℕ))
      / (⟨true, 600, .spring, 0, "grow"⟩ : ResolvedAnim).duration) = 1 from by norm_num]
  rw [show (((1:ℚ):ℝ)) = (1:ℝ) from by norm_num]
  have : EASINGS .spring 1 = 1 - Real.exp (-6) * Real.cos 6.5 := by
    norm_num [EASINGS]
  rw [this]
  exact spring_at_one_ne_one

/-- C6: with at least one item, positive duration and non-negative stagger,
the `tick` completion predicate `elapsed ≥ duration + delay·(n-1)`
(`globalDone`) holds iff every item's un-clamped progress argument
`(elapsed - delay·i)/duration` is at least `1`. -/
theorem global_completion (a : ResolvedAnim) (n : ℕ) (e : ℚ)
    (hn : 1 ≤ n) (hdur : 0 < a.duration) (hdel : 0 ≤ a.delay) :
    globalDone a n e = true ↔ ∀ i : ℕ, i < n → 1 ≤ unclampedArg a i e := by
  rw [globalDone, decide_eq_true_eq, totalTime]
  have hn1 : (1:ℚ) ≤ (n:ℚ) := by exact_mod_cast hn
  have hmax : max 0 ((n:ℚ) - 1) = (n:ℚ) - 1 := max_eq_right (by linarith)
  rw [hmax]
  constructor
  · intro hdone i hi
    rw [unclampedArg, one_le_div hdur]
    have hin : (i:ℚ) ≤ (n:ℚ) - 1 := by
      have : ((i:ℚ) + 1) ≤ (n:ℚ) := by exact_mod_cast Nat.succ_le_of_lt hi
      linarith
    have := mul_le_mul_of_nonneg_left hin hdel
    linarith
  · intro hall
    have hlast := hall (n - 1) (by omega)
    rw [unclampedArg, one_le_div hdur] at hlast
    have hcast : (((n - 1 : ℕ)) : ℚ) = (n:ℚ) - 1 := by
      push_cast [Nat.cast_sub hn]
      ring
    rw [hcast] at hlast
    linarith

/-- Witness for `global_completion`: three items, 600 ms duration, 30 ms
stagger, elapsed 660 ms (= total time). -/
theorem global_completion_witness :
    ((1:ℕ) ≤ 3 ∧ (0:ℚ) < 600 ∧ (0:ℚ) ≤ 30) ∧
    (globalDone ⟨true, 600, .easeOut, 30, "grow"⟩ 3 660 = true ↔
      ∀ i : ℕ, i < 3 → 1 ≤ unclampedArg ⟨true, 600, .easeOut, 30, "grow"⟩ i 660) :=
  ⟨⟨by norm_num, by norm_num, by norm_num⟩,
    global_completion ⟨true, 600, .easeOut, 30, "grow"⟩ 3 660 (by norm_num)
      (by norm_num) (by norm_num)⟩

/-! ## Sector hit-testing (`src/charts/Sparkline.ts`)

`hitTest` works over `ℝ` (it uses `sqrt` and `atan2`); the `if`s on real
comparisons use classical decidability. -/

/-- JS `Math.atan2(dy, dx)`, with range `(-π, π]`. -/
noncomputable def atan2 (y x : ℝ) : ℝ := Complex.arg ⟨x, y⟩

open Classical in
/-- The scan loop of `hitTest`: the first index `i` with
`angle >= sliceAngles[i].start && angle < sliceAngles[i].end`, else `-1`. -/
noncomputable def sliceIndexScan (angle : ℝ) : List (ℝ × ℝ) → ℤ → ℤ
  | [], _ => -1
  | sa :: rest, i =>
    if sa.1 ≤ angle ∧ angle < sa.2 then i else sliceIndexScan angle rest (i + 1)

open Classical in
/-- `hitTest(x, y)` from `Sparkline.ts` (the cached geometry
`chartCx, chartCy, innerR, outerR, dpr, sliceAngles` becomes arguments). -/
noncomputable def hitTest (x y chartCx chartCy innerR outerR dpr : ℝ)
    (sliceAngles : List (ℝ × ℝ)) : ℤ :=
  let dx := x - chartCx
  let dy := y - chartCy
  let dist := Real.sqrt (dx * dx + dy * dy)
  if dist < innerR ∨ dist > outerR + 8 * dpr then -1
  else
    let angle0 := atan2 dy dx
    let angle := if angle0 < -(Real.pi / 2) then angle0 + Real.pi * 2 else angle0
    sliceIndexScan angle sliceAngles 0

/-- The slice-angle construction loop of `drawPrimaryRing`:
`sweep = (d.value / total) * Math.PI * 2`, pushing `{start: angle, end:
angle + sweep}` and advancing `angle`. -/
noncomputable def sliceAnglesGo (total : ℝ) : ℝ → List ℝ → List (ℝ × ℝ)
  | _, [] => []
  | angle, v :: rest =>
    let sweep := v / total * Real.pi * 2
    (angle, angle + sweep) :: sliceAnglesGo total (angle + sweep) rest

/-- The full slice-angle table: accumulation starts at `-π/2` (12 o'clock). -/
noncomputable def computeSliceAngles (values : List ℝ) (total : ℝ) : List (ℝ × ℝ) :=
  sliceAnglesGo total (-(Real.pi / 2)) values

theorem sliceAnglesGo_eq (total : ℝ) :
    ∀ (values : List ℝ) (a : ℝ),
      sliceAnglesGo total a values =
        (List.range values.length).map (fun k =>
          (a + (values.take k).sum / total * Real.pi * 2,
           a + (values.take (k + 1)).sum / total * Real.pi * 2))
  | [], a => by simp [sliceAnglesGo]
  | v :: rest, a => by
    have ih := sliceAnglesGo_eq total rest (a + v / total * Real.pi * 2)
    simp only [sliceAnglesGo, ih, List.length_cons, List.range_succ_eq_map, List.map_cons,
      List.map_map, List.cons.injEq]
    constructor
    · simp
    · apply List.map_congr_left
      intro k _
      simp only [Function.comp_apply, List.take_succ_cons, List.sum_cons, Prod.mk.injEq]
      constructor
      · ring
      · ring

/-- Adjacent sectors share their boundary angle: `end k = start (k+1)`. -/
def chained (slices : List (ℝ × ℝ)) : Prop :=
  ∀ k (h : k + 1 < slices.length),
    (slices.get ⟨k, by omega⟩).2 = (slices.get ⟨k + 1, h⟩).1

/-- Every sector has a positive angular sweep. -/
def positiveSweeps (slices : List (ℝ × ℝ)) : Prop :=
  ∀ k (h : k < slices.length), (slices.get ⟨k, h⟩).1 < (slices.get ⟨k, h⟩).2

theorem sliceIndexScan_spec (angle : ℝ) :
    ∀ (slices : List (ℝ × ℝ)) (acc : ℤ) (m : ℕ) (hm : m < slices.length),
      (∀ k (hk : k < m),
        ¬((slices.get ⟨k, lt_trans hk hm⟩).1 ≤ angle ∧
          angle < (slices.get ⟨k, lt_trans hk hm⟩).2)) →
      ((slices.get ⟨m, hm⟩).1 ≤ angle ∧ angle < (slices.get ⟨m, hm⟩).2) →
      sliceIndexScan angle slices acc = acc + m
  | [], acc, m, hm, _, _ => absurd hm (by simp)
  | sa :: rest, acc, 0, hm, _, hin => by
    rw [sliceIndexScan, if_pos (by simpa using hin)]
    simp
  | sa :: rest, acc, m + 1, hm, hnot, hin => by
    rw [sliceIndexScan, if_neg (by simpa using hnot 0 (Nat.succ_pos m))]
    have := sliceIndexScan_spec angle rest (acc + 1) m (by simpa using hm)
      (fun k hk => by simpa using hnot (k + 1) (by omega)) (by simpa using hin)
    rw [this]
    push_cast
    ring

theorem ends_mono {slices : List (ℝ × ℝ)} (hch : chained slices)
    (hpos : positiveSweeps slices) :
    ∀ (l : ℕ) (hl : l < slices.length) (k : ℕ) (hkl : k ≤ l),
      (slices.get ⟨k, lt_of_le_of_lt hkl hl⟩).2 ≤ (slices.get ⟨l, hl⟩).2 := by
  intro l
  induction l with
  | zero =>
    intro hl k hkl
    have : k = 0 := by omega
    subst this
    exact le_refl _
  | succ l ih =>
    intro hl k hkl
    rcases Nat.lt_or_ge k (l + 1) with hk | hk
    · have h1 := ih (by omega) k (by omega)
      have h2 := hch l (by omega)
      have h3 := hpos (l + 1) hl
      calc (slices.get ⟨k, lt_of_le_of_lt hkl hl⟩).2
          ≤ (slices.get ⟨l, by omega⟩).2 := h1
        _ = (slices.get ⟨l + 1, hl⟩).1 := h2
        _ ≤ (slices.get ⟨l + 1, hl⟩).2 := le_of_lt h3
    · have : k = l + 1 := by omega
      subst this
      exact le_refl _

/-- In a chained, positive-sweep sector list, the scan returns exactly the
index of the sector whose half-open range contains the angle. -/
theorem sliceIndexScan_unique {slices : List (ℝ × ℝ)} (hch : chained slices)
    (hpos : positiveSweeps slices) (angle : ℝ) (m : ℕ) (hm : m < slices.length)
    (h1 : (slices.get ⟨m, hm⟩).1 ≤ angle) (h2 : angle < (slices.get ⟨m, hm⟩).2) :
    sliceIndexScan angle slices 0 = m := by
  have := sliceIndexScan_spec angle slices 0 m hm (fun k hk => by
    intro hcon
    have hkm : k < m := hk
    rcases Nat.exists_eq_add_of_lt hkm with ⟨d, rfl⟩
    have hend : (slices.get ⟨k, by omega⟩).2 ≤ (slices.get ⟨k + d, by omega⟩).2 :=
      ends_mono hch hpos (k + d) (by omega) k (by omega)
    have hstart : (slices.get ⟨k + d, by omega⟩).2 ≤ (slices.get ⟨k + d + 1, hm⟩).1 := by
      rw [hch (k + d) (by omega)]
    linarith [hcon.2]) ⟨h1, h2⟩
  simpa using this

/-- C7: the donut hit test (a) returns `-1` whenever the radial distance is
outside `[innerR, outerR + 8·dpr]`; (b) otherwise scans the sectors with the
pointer angle normalized into `[-π/2, 3π/2)` (starting at 12 o'clock,
increasing clockwise); (c) the normalized angle always lies in that range;
(d) on a chained positive-sweep sector list the scan returns exactly the
sector whose half-open `[start, end)` range contains the angle, so an angle
equal to a shared boundary matches the following slice, never the preceding
one; (e) `drawPrimaryRing` builds exactly such a chained list, starting at
`-π/2`, when all values are positive. -/
theorem sector_hit_testing :
    (∀ (x y cx cy innerR outerR dpr : ℝ) (slices : List (ℝ × ℝ)),
      (Real.sqrt ((x - cx) * (x - cx) + (y - cy) * (y - cy)) < innerR ∨
        Real.sqrt ((x - cx) * (x - cx) + (y - cy) * (y - cy)) > outerR + 8 * dpr) →
      hitTest x y cx cy innerR outerR dpr slices = -1) ∧
    (∀ (x y cx cy innerR outerR dpr : ℝ) (slices : List (ℝ × ℝ)),
      ¬(Real.sqrt ((x - cx) * (x - cx) + (y - cy) * (y - cy)) < innerR ∨
        Real.sqrt ((x - cx) * (x - cx) + (y - cy) * (y - cy)) > outerR + 8 * dpr) →
      hitTest x y cx cy innerR outerR dpr slices =
        sliceIndexScan
          (if atan2 (y - cy) (x - cx) < -(Real.pi / 2)
            then atan2 (y - cy) (x - cx) + Real.pi * 2
            else atan2 (y - cy) (x - cx)) slices 0) ∧
    (∀ dy dx : ℝ,
      -(Real.pi / 2) ≤
          (if atan2 dy dx < -(Real.pi / 2) then atan2 dy dx + Real.pi * 2
            else atan2 dy dx) ∧
        (if atan2 dy dx < -(Real.pi / 2) then atan2 dy dx + Real.pi * 2
          else atan2 dy dx) < 3 * Real.pi / 2) ∧
    (∀ (slices : List (ℝ × ℝ)), chained slices → positiveSweeps slices →
      ∀ (angle : ℝ) (m : ℕ) (hm : m < slices.length),
        (slices.get ⟨m, hm⟩).1 ≤ angle → angle < (slices.get ⟨m, hm⟩).2 →
        sliceIndexScan angle slices 0 = m) ∧
    (∀ (slices : List (ℝ × ℝ)), chained slices → positiveSweeps slices →
      ∀ (j : ℕ) (hj : j + 1 < slices.length) (angle : ℝ),
        angle = (slices.get ⟨j, by omega⟩).2 →
        sliceIndexScan angle slices 0 = j + 1) ∧
    (∀ (values : List ℝ) (total : ℝ), 0 < total → (∀ v ∈ values, 0 < v) →
      chained (computeSliceAngles values total) ∧
      positiveSweeps (computeSliceAngles values total) ∧
      (∀ h0 : 0 < (computeSliceAngles values total).length,
        ((computeSliceAngles values total).get ⟨0, h0⟩).1 = -(Real.pi / 2))) := by
  refine ⟨?_, ?_, ?_, ?_, ?_, ?_⟩
  · intro x y cx cy innerR outerR dpr slices h
    simp only [hitTest]
    rw [if_pos h]
  · intro x y cx cy innerR outerR dpr slices h
    simp only [hitTest]
    rw [if_neg h]
  · intro dy dx
    have hle : atan2 dy dx ≤ Real.pi := Complex.arg_le_pi _
    have hgt : -Real.pi < atan2 dy dx := Complex.neg_pi_lt_arg _
    have hpi : 0 < Real.pi := Real.pi_pos
    by_cases h : atan2 dy dx < -(Real.pi / 2)
    · rw [if_pos h]
      constructor <;> linarith
    · rw [if_neg h]
      push_neg at h
      constructor <;> linarith
  · intro slices hch hpos angle m hm h1 h2
    exact sliceIndexScan_unique hch hpos angle m hm h1 h2
  · intro slices hch hpos j hj angle hangle
    have hstart : (slices.get ⟨j + 1, hj⟩).1 = angle := by
      rw [hangle, hch j hj]
    have hend := hpos (j + 1) hj
    have := sliceIndexScan_unique hch hpos angle (j + 1) hj (le_of_eq hstart)
      (by rw [← hstart]; exact hend)
    rw [this]
    push_cast
    ring
  · intro values total htot hval
    have hchar : computeSliceAngles values total =
        (List.range values.length).map (fun k =>
          (-(Real.pi / 2) + (values.take k).sum / total * Real.pi * 2,
           -(Real.pi / 2) + (values.take (k + 1)).sum / total * Real.pi * 2)) :=
      sliceAnglesGo_eq total values (-(Real.pi / 2))
    have hlen : (computeSliceAngles values total).length = values.length := by
      rw [hchar]; simp
    refine ⟨?_, ?_, ?_⟩
    · intro k h
      have hk1 : k + 1 < values.length := by rw [← hlen]; exact h
      simp only [hchar, List.get_eq_getElem, List.getElem_map, List.getElem_range]
    · intro k h
      have hk : k < values.length := by rw [← hlen]; exact h
      simp only [hchar, List.get_eq_getElem, List.getElem_map, List.getElem_range]
      have hsum : (values.take (k + 1)).sum = (values.take k).sum + values.get ⟨k, hk⟩ :=
        List.sum_take_succ values k hk
      have hv : 0 < values.get ⟨k, hk⟩ := hval _ (values.get_mem _ _)
      have hkey : (values.take k).sum / total < (values.take (k + 1)).sum / total := by
        rw [hsum]
        exact (div_lt_div_iff_of_pos_right htot).mpr (by linarith)
      have hd : 0 < ((values.take (k + 1)).sum / total - (values.take k).sum / total) := by
        linarith
      nlinarith [Real.pi_pos]
    · intro h0
      simp only [hchar, List.get_eq_getElem, List.getElem_map, List.getElem_range]
      simp

/-- Witness for `sector_hit_testing`: the pointer at the ring center is
rejected radially; for the spec's three equal 120° slices starting at
`-π/2`, the shared boundary angle `π/6` (30°) falls to slice 1, the
following slice, not slice 0. -/
theorem sector_hit_testing_witness :
    hitTest 0 0 0 0 1 2 1 [] = -1 ∧
    sliceIndexScan (Real.pi / 6)
      [(-(Real.pi / 2), Real.pi / 6), (Real.pi / 6, 5 * Real.pi / 6),
        (5 * Real.pi / 6, 3 * Real.pi / 2)] 0 = 1 := by
  constructor
  · exact sector_hit_testing.1 0 0 0 0 1 2 1 []
      (Or.inl (by norm_num [Real.sqrt_zero]))
  · have hch : chained [(-(Real.pi / 2), Real.pi / 6), (Real.pi / 6, 5 * Real.pi / 6),
        (5 * Real.pi / 6, 3 * Real.pi / 2)] := by
      intro k h
      match k, h with
      | 0, _ => rfl
      | 1, _ => rfl
    have hpos : positiveSweeps [(-(Real.pi / 2), Real.pi / 6), (Real.pi / 6, 5 * Real.pi / 6),
        (5 * Real.pi / 6, 3 * Real.pi / 2)] := by
      intro k h
      match k, h with
      | 0, _ => show -(Real.pi / 2) < Real.pi / 6; linarith [Real.pi_pos]
      | 1, _ => show Real.pi / 6 < 5 * Real.pi / 6; linarith [Real.pi_pos]
      | 2, _ => show 5 * Real.pi / 6 < 3 * Real.pi / 2; linarith [Real.pi_pos]
    have := sector_hit_testing.2.2.2.2.1
      [(-(Real.pi / 2), Real.pi / 6), (Real.pi / 6, 5 * Real.pi / 6),
        (5 * Real.pi / 6, 3 * Real.pi / 2)] hch hpos 0 (by norm_num) (Real.pi / 6) rfl
    simpa using this

/-! ## Axis-index hit-testing (`findHoveredIndex`, area chart source file)

The margin, plot-width, x-mapping and slot-width computations of
`findHoveredIndex` are named so the characterization can speak about them;
`closestDist = Infinity` is `⊤ : WithTop ℚ`. -/

/-- `mLeft_ = showYAxis ? 50*dpr : 16*dpr`. -/
def fhiMLeft (showYAxis : Bool) (dpr : ℚ) : ℚ :=
  if showYAxis then 50 * dpr else 16 * dpr

/-- `plotW_ = canvas.width - mLeft_ - mRight_` with `mRight_ = 16*dpr`. -/
def fhiPlotW (showYAxis : Bool) (dpr canvasWidth : ℚ) : ℚ :=
  canvasWidth - fhiMLeft showYAxis dpr - 16 * dpr

/-- `toX_(i) = mLeft_ + (i / Math.max(n - 1, 1)) * plotW_`. -/
def fhiToX (showYAxis : Bool) (dpr canvasWidth : ℚ) (n : ℕ) (i : ℕ) : ℚ :=
  fhiMLeft showYAxis dpr
    + ((i : ℚ) / max ((n : ℚ) - 1) 1) * fhiPlotW showYAxis dpr canvasWidth

/-- `slotW = n > 1 ? plotW_ / (n - 1) : plotW_`. -/
def fhiSlotW (showYAxis : Bool) (dpr canvasWidth : ℚ) (n : ℕ) : ℚ :=
  if 1 < n then fhiPlotW showYAxis dpr canvasWidth / ((n : ℚ) - 1)
  else fhiPlotW showYAxis dpr canvasWidth

/-- `dist = Math.abs(mx * dpr - toX_(i))`. -/
def fhiDist (showYAxis : Bool) (dpr canvasWidth : ℚ) (n : ℕ) (mx : ℚ) (i : ℕ) : ℚ :=
  |mx * dpr - fhiToX showYAxis dpr canvasWidth n i|

/-- `findHoveredIndex(mx)` from the area chart: scan all indices keeping the
strictly closest one among those with `dist < slotW * 0.6`. -/
def findHoveredIndex (showYAxis : Bool) (dpr canvasWidth : ℚ) (n : ℕ) (mx : ℚ) : ℤ :=
  if n = 0 then -1
  else
    ((List.range n).foldl (fun acc i =>
      if (fhiDist showYAxis dpr canvasWidth n mx i : WithTop ℚ) < acc.2 ∧
          fhiDist showYAxis dpr canvasWidth n mx i
            < fhiSlotW showYAxis dpr canvasWidth n * 0.6
        then ((i : ℤ), (fhiDist showYAxis dpr canvasWidth n mx i : WithTop ℚ))
        else acc)
      (-1, ⊤)).1

theorem fhi_fold_inv (sy : Bool) (dpr cw : ℚ) (n : ℕ) (mx : ℚ) :
    ∀ m : ℕ,
      (let acc := (List.range m).foldl (fun acc i =>
        if (fhiDist sy dpr cw n mx i : WithTop ℚ) < acc.2 ∧
            fhiDist sy dpr cw n mx i < fhiSlotW sy dpr cw n * 0.6
          then ((i : ℤ), (fhiDist sy dpr cw n mx i : WithTop ℚ))
          else acc) ((-1 : ℤ), (⊤ : WithTop ℚ))
      (acc = (-1, ⊤) ∧
          ∀ i, i < m → ¬(fhiDist sy dpr cw n mx i < fhiSlotW sy dpr cw n * 0.6)) ∨
        (∃ j : ℕ, j < m ∧ acc = ((j : ℤ), (fhiDist sy dpr cw n mx j : WithTop ℚ)) ∧
          fhiDist sy dpr cw n mx j < fhiSlotW sy dpr cw n * 0.6 ∧
          (∀ i, i < m → fhiDist sy dpr cw n mx j ≤ fhiDist sy dpr cw n mx i) ∧
          (∀ i, i < m → fhiDist sy dpr cw n mx i = fhiDist sy dpr cw n mx j → j ≤ i))) := by
  intro m
  induction m with
  | zero => exact Or.inl ⟨rfl, by omega⟩
  | succ m ih =>
    simp only [List.range_succ, List.foldl_append, List.foldl_cons, List.foldl_nil] at *
    rcases ih with ⟨hacc, hall⟩ | ⟨j, hjm, hacc, hjthr, hjmin, hjtie⟩
    all_goals rw [hacc]
    · by_cases hc : fhiDist sy dpr cw n mx m < fhiSlotW sy dpr cw n * 0.6
      · rw [if_pos ⟨by simp [WithTop.coe_lt_top], hc⟩]
        refine Or.inr ⟨m, by omega, rfl, hc, ?_, ?_⟩
        · intro i hi
          rcases Nat.lt_or_ge i m with h | h
          · have := hall i h
            linarith
          · have : i = m := by omega
            subst this
            exact le_refl _
        · intro i hi hie
          rcases Nat.lt_or_ge i m with h | h
          · exact absurd (hie ▸ hc) (hall i h)
          · omega
      · rw [if_neg (by
          intro hcon
          exact hc hcon.2)]
        refine Or.inl ⟨rfl, ?_⟩
        intro i hi
        rcases Nat.lt_or_ge i m with h | h
        · exact hall i h
        · have : i = m := by omega
          subst this
          exact hc
    · by_cases hc : fhiDist sy dpr cw n mx m < fhiDist sy dpr cw n mx j ∧
          fhiDist sy dpr cw n mx m < fhiSlotW sy dpr cw n * 0.6
      · rw [if_pos ⟨by simpa using (WithTop.coe_lt_coe.mpr hc.1), hc.2⟩]
        refine Or.inr ⟨m, by omega, rfl, hc.2, ?_, ?_⟩
        · intro i hi
          rcases Nat.lt_or_ge i m with h | h
          · have := hjmin i h
            linarith [hc.1]
          · have : i = m := by omega
            subst this
            exact le_refl _
        · intro i hi hie
          rcases Nat.lt_or_ge i m with h | h
          · have := hjmin i h
            linarith [hc.1, hie.ge]
          · omega
      · rw [if_neg (by
          intro hcon
          refine hc ⟨?_, hcon.2⟩
          have := hcon.1
          simp only [] at this
          exact_mod_cast this)]
        have hjm' : fhiDist sy dpr cw n mx j ≤ fhiDist sy dpr cw n mx m := by
          rcases not_and_or.mp hc with h | h
          · linarith [not_lt.mp h]
          · linarith [not_lt.mp h]
        refine Or.inr ⟨j, by omega, rfl, hjthr, ?_, ?_⟩
        · intro i hi
          rcases Nat.lt_or_ge i m with h | h
          · exact hjmin i h
          · have : i = m := by omega
            subst this
            exact hjm'
        · intro i hi hie
          rcases Nat.lt_or_ge i m with h | h
          · exact hjtie i h hie
          · omega

/-- C8 (amended): for a non-empty data set, `findHoveredIndex` returns the
least-index *nearest* data point along the linearly-spaced x-axis when that
nearest distance is strictly below `0.6` of a slot width — not half a slot
width — and `-1` otherwise. -/
theorem find_hovered_characterization (sy : Bool) (dpr cw : ℚ) (n : ℕ) (mx : ℚ)
    (hn : 1 ≤ n) :
    (findHoveredIndex sy dpr cw n mx = -1 ∧
      ∀ i, i < n → ¬(fhiDist sy dpr cw n mx i < fhiSlotW sy dpr cw n * 0.6)) ∨
    (∃ j : ℕ, j < n ∧ findHoveredIndex sy dpr cw n mx = j ∧
      fhiDist sy dpr cw n mx j < fhiSlotW sy dpr cw n * 0.6 ∧
      (∀ i, i < n → fhiDist sy dpr cw n mx j ≤ fhiDist sy dpr cw n mx i) ∧
      (∀ i, i < n → fhiDist sy dpr cw n mx i = fhiDist sy dpr cw n mx j → j ≤ i)) := by
  have hne : ¬ n = 0 := by omega
  have hinv := fhi_fold_inv sy dpr cw n mx n
  rw [findHoveredIndex, if_neg hne]
  rcases hinv with ⟨hacc, hall⟩ | ⟨j, hjn, hacc, hjthr, hjmin, hjtie⟩
  · exact Or.inl ⟨by rw [hacc], hall⟩
  · exact Or.inr ⟨j, hjn, by rw [hacc], hjthr, hjmin, hjtie⟩

/-- Witness for `find_hovered_characterization`: a two-point chart
(`showYAxis`, `dpr = 1`, canvas width 166) with the pointer at `x = 100`. -/
theorem find_hovered_characterization_witness :
    (1:ℕ) ≤ 2 ∧
    ((findHoveredIndex true 1 166 2 100 = -1 ∧
      ∀ i, i < 2 → ¬(fhiDist true 1 166 2 100 i < fhiSlotW true 1 166 2 * 0.6)) ∨
    (∃ j : ℕ, j < 2 ∧ findHoveredIndex true 1 166 2 100 = j ∧
      fhiDist true 1 166 2 100 j < fhiSlotW true 1 166 2 * 0.6 ∧
      (∀ i, i < 2 → fhiDist true 1 166 2 100 j ≤ fhiDist true 1 166 2 100 i) ∧
      (∀ i, i < 2 → fhiDist true 1 166 2 100 i = fhiDist true 1 166 2 100 j → j ≤ i))) :=
  ⟨by norm_num, find_hovered_characterization true 1 166 2 100 (by norm_num)⟩

/-- C8 counterexample: the acceptance window is `0.6` of a slot width, not
half.  With `showYAxis`, `dpr = 1`, canvas width 166 and two points (at
x = 50 and x = 150, slot width 100), the pointer at `mx = 205` is 55 px from
the nearest point — more than half a slot (50) — yet the hit test returns
index 1 (because `55 < 0.6·100`), where the claim requires `-1`. -/
theorem find_hovered_counterexample :
    findHoveredIndex true 1 166 2 205 = 1 ∧
    fhiDist true 1 166 2 205 1 = 55 ∧
    fhiSlotW true 1 166 2 = 100 ∧
    ¬((55:ℚ) < 100 / 2) := by
  have h0 : fhiDist true 1 166 2 205 0 = 155 := by
    norm_num [fhiDist, fhiToX, fhiMLeft, fhiPlotW, abs_eq_self]
  have h1 : fhiDist true 1 166 2 205 1 = 55 := by
    norm_num [fhiDist, fhiToX, fhiMLeft, fhiPlotW, abs_eq_self]
  have hs : fhiSlotW true 1 166 2 = 100 := by
    norm_num [fhiSlotW, fhiPlotW, fhiMLeft]
  refine ⟨?_, h1, hs, by norm_num⟩
  rw [findHoveredIndex, if_neg (by norm_num)]
  simp only [List.range_succ, List.range_zero, List.foldl_nil, List.foldl_cons,
    List.foldl_append, h0, h1, hs]
  split_ifs with hA hB hC
  all_goals try norm_num
  · exact absurd hA.2 (by norm_num)
  · exact hC ⟨WithTop.coe_lt_top _, by norm_num⟩

/-! ## Theme / luminance resolver (`isLightBg`, `hexLuminance`,
`parseLuminance`; identical copies live in several chart files, the claim's
source is `Heatmap.ts`)

Color strings are their character lists.  `parseInt(s, 16)` is modelled with
its whitespace-skip, optional sign, optional `0x` marker and
longest-hex-digit-run semantics; `parseInt(...) || 0` maps the no-digit
(`NaN`) and `-0` cases to `0`, which the model returns directly.  The DOM
ancestor walk of `isLightBg` is abstracted (as the spec's design notes
prescribe) into the list of ancestors' effective `backgroundColor` values. -/

def isWhitespaceChar (c : Char) : Bool :=
  c = ' ' ∨ c = '\t' ∨ c = '\n' ∨ c = '\r'

def hexDigitVal? (c : Char) : Option ℕ :=
  if '0' ≤ c ∧ c ≤ '9' then some (c.toNat - '0'.toNat)
  else if 'a' ≤ c ∧ c ≤ 'f' then some (c.toNat - 'a'.toNat + 10)
  else if 'A' ≤ c ∧ c ≤ 'F' then some (c.toNat - 'A'.toNat + 10)
  else none

/-- The longest run of leading hex digits, read as a base-16 value. -/
def hexDigitsVal (acc : ℕ) : List Char → ℕ
  | [] => acc
  | c :: rest =>
    match hexDigitVal? c with
    | some d => hexDigitsVal (16 * acc + d) rest
    | none => acc

/-- `parseInt(s, 16) || 0`. -/
def parseIntHex (s : List Char) : ℤ :=
  match s.dropWhile isWhitespaceChar with
  | '-' :: r =>
    -(hexDigitsVal 0 (match r with
      | '0' :: 'x' :: r2 => r2
      | '0' :: 'X' :: r2 => r2
      | r2 => r2) : ℤ)
  | '+' :: r =>
    (hexDigitsVal 0 (match r with
      | '0' :: 'x' :: r2 => r2
      | '0' :: 'X' :: r2 => r2
      | r2 => r2) : ℤ)
  | t =>
    (hexDigitsVal 0 (match t with
      | '0' :: 'x' :: r2 => r2
      | '0' :: 'X' :: r2 => r2
      | r2 => r2) : ℤ)

/-- JS `String.prototype.substring(a, b)` for `a ≤ b`. -/
def substringJS (s : List Char) (a b : ℕ) : List Char :=
  (s.take b).drop a

/-- JS `String.prototype.replace(c, '')` with a plain one-character pattern:
remove the first occurrence only. -/
def removeFirst (c : Char) : List Char → List Char
  | [] => []
  | a :: r => if a = c then r else a :: removeFirst c r

def startsWith (c : Char) : List Char → Bool
  | [] => false
  | a :: _ => a = c

/-- `hexLuminance(bg)` from `Heatmap.ts`: parses `#rrggbb` channels and
classifies light when `(r*299 + g*587 + b*114) / 1000 > 150`; every
non-`#`-led string — `rgb(...)` strings included — yields `false`. -/
def hexLuminance (bg : List Char) : Bool :=
  if startsWith '#' bg then
    decide ((((parseIntHex (substringJS (removeFirst '#' bg) 0 2) * 299
      + parseIntHex (substringJS (removeFirst '#' bg) 2 4) * 587
      + parseIntHex (substringJS (removeFirst '#' bg) 4 6) * 114 : ℤ) : ℚ)) / 1000 > 150)
  else false

def digitsVal (l : List Char) : ℕ :=
  l.foldl (fun a c => 10 * a + (c.toNat - '0'.toNat)) 0

/-- One `\s*(\d+)` step of the rgb regex: skip whitespace, then require at
least one decimal digit (taken greedily). -/
def parseNum (s : List Char) : Option (ℕ × List Char) :=
  let s1 := s.dropWhile isWhitespaceChar
  let digits := s1.takeWhile (fun c => decide ('0' ≤ c ∧ c ≤ '9'))
  if digits = [] then none
  else some (digitsVal digits, s1.drop digits.length)

/-- An attempted match of `rgba?\(\s*(\d+),\s*(\d+),\s*(\d+)` anchored at
the start of `s`. -/
def matchRgbAt (s : List Char) : Option (ℕ × ℕ × ℕ) :=
  match s with
  | 'r' :: 'g' :: 'b' :: rest =>
    match (match rest with
      | 'a' :: '(' :: r => some r
      | '(' :: r => some r
      | _ => none) with
    | none => none
    | some r0 =>
      match parseNum r0 with
      | none => none
      | some (rv, r1) =>
        match r1 with
        | ',' :: r2 =>
          match parseNum r2 with
          | none => none
          | some (gv, r3) =>
            match r3 with
            | ',' :: r4 =>
              match parseNum r4 with
              | none => none
              | some (bv, _) => some (rv, gv, bv)
            | _ => none
        | _ => none
  | _ => none

/-- `color.match(/rgba?\(\s*(\d+),\s*(\d+),\s*(\d+)/)`: a regex `match`
searches at every position. -/
def rgbSearch : List Char → Option (ℕ × ℕ × ℕ)
  | [] => none
  | c :: rest =>
    match matchRgbAt (c :: rest) with
    | some v => some v
    | none => rgbSearch rest

/-- `parseLuminance(color)` from `Heatmap.ts`: hex strings via
`hexLuminance`, otherwise the rgb/rgba regex with the same
`(r*299 + g*587 + b*114)/1000 > 150` rule; unmatched strings are dark. -/
def parseLuminance (color : List Char) : Bool :=
  if startsWith '#' color then hexLuminance color
  else
    match rgbSearch color with
    | some (r, g, b) =>
      decide (((((r : ℤ) * 299 + (g : ℤ) * 587 + (b : ℤ) * 114 : ℤ) : ℚ)) / 1000 > 150)
    | none => false

/-- The `while (node)` ancestor loop of `isLightBg`: the first ancestor whose
effective background color is truthy and neither `'transparent'` nor
`'rgba(0, 0, 0, 0)'` decides via `parseLuminance`; exhausting the chain gives
dark. -/
def walkChain : List (List Char) → Bool
  | [] => false
  | c :: rest =>
    if c ≠ [] ∧ c ≠ "transparent".data ∧ c ≠ "rgba(0, 0, 0, 0)".data
    then parseLuminance c
    else walkChain rest

/-- `isLightBg(bg, el)` from `Heatmap.ts`; `el` is abstracted to the chain
of ancestor background colors (`none` = no element supplied). -/
def isLightBg (bg : List Char) (el : Option (List (List Char))) : Bool :=
  match el with
  | some chain => if bg = "transparent".data then walkChain chain else hexLuminance bg
  | none => hexLuminance bg

/-- A lowercase hex digit. -/
def hexDigitChar (n : ℕ) : Char :=
  if n < 10 then Char.ofNat ('0'.toNat + n) else Char.ofNat ('a'.toNat + n - 10)

/-- The canonical two-digit lowercase hex rendering of a byte. -/
def hex2 (n : ℕ) : List Char :=
  [hexDigitChar (n / 16), hexDigitChar (n % 16)]

set_option maxRecDepth 20000 in
theorem parseIntHex_hex2 : ∀ n : ℕ, n < 256 → parseIntHex (hex2 n) = (n : ℤ) := by
  decide

/-- C9 (amended): an explicit **hex** background is classified light exactly
when `0.299r + 0.587g + 0.114b > 150` (equivalently
`r*299 + g*587 + b*114 > 150000`), and `"#FFFFFF"` / `"#000000"` resolve to
light / dark as claimed — but an explicit **rgb/rgba** background is *not*
parsed: every non-`#`-led explicit background (including
`"rgb(200,200,200)"`) resolves dark, because the explicit-color path calls
`hexLuminance` only.  The rgb/rgba luminance rule applies only to ancestor
computed styles in the `"transparent"` walk (`parseLuminance`), where
`"rgb(200,200,200)"` does resolve light. -/
theorem theme_luminance :
    (∀ r g b : ℕ, r < 256 → g < 256 → b < 256 →
      isLightBg ('#' :: (hex2 r ++ hex2 g ++ hex2 b)) none
        = decide (150000 < r * 299 + g * 587 + b * 114)) ∧
    (∀ bg : List Char, startsWith '#' bg = false → isLightBg bg none = false) ∧
    isLightBg "#FFFFFF".data none = true ∧
    isLightBg "#000000".data none = false ∧
    isLightBg "rgb(200,200,200)".data none = false ∧
    isLightBg "transparent".data (some ["rgb(200,200,200)".data]) = true := by
  refine ⟨?_, ?_, ?_, ?_, ?_, ?_⟩
  · intro r g b hr hg hb
    show hexLuminance ('#' :: (hex2 r ++ hex2 g ++ hex2 b)) = _
    rw [hexLuminance,
      if_pos (show startsWith '#' ('#' :: (hex2 r ++ hex2 g ++ hex2 b)) = true from rfl)]
    have hrm : removeFirst '#' ('#' :: (hex2 r ++ hex2 g ++ hex2 b))
        = hex2 r ++ hex2 g ++ hex2 b := by
      simp [removeFirst]
    have hs0 : substringJS (hex2 r ++ hex2 g ++ hex2 b) 0 2 = hex2 r := by
      simp [substringJS, hex2]
    have hs2 : substringJS (hex2 r ++ hex2 g ++ hex2 b) 2 4 = hex2 g := by
      simp [substringJS, hex2]
    have hs4 : substringJS (hex2 r ++ hex2 g ++ hex2 b) 4 6 = hex2 b := by
      simp [substringJS, hex2]
    rw [hrm, hs0, hs2, hs4, parseIntHex_hex2 r hr, parseIntHex_hex2 g hg,
      parseIntHex_hex2 b hb, decide_eq_decide, gt_iff_lt,
      lt_div_iff₀ (by norm_num : (0:ℚ) < 1000)]
    constructor
    · intro h
      exact_mod_cast h
    · intro h
      exact_mod_cast h
  · intro bg hsw
    show hexLuminance bg = false
    rw [hexLuminance, if_neg]
    simp [hsw]
  · show hexLuminance "#FFFFFF".data = true
    have h1 : parseIntHex ['F', 'F'] = 255 := by decide
    rw [show ("#FFFFFF".data) = ['#','F','F','F','F','F','F'] from rfl]
    rw [hexLuminance,
      if_pos (show startsWith '#' ['#','F','F','F','F','F','F'] = true from rfl)]
    rw [show removeFirst '#' ['#','F','F','F','F','F','F'] = ['F','F','F','F','F','F']
      from rfl]
    rw [show substringJS ['F','F','F','F','F','F'] 0 2 = ['F','F'] from rfl,
      show substringJS ['F','F','F','F','F','F'] 2 4 = ['F','F'] from rfl,
      show substringJS ['F','F','F','F','F','F'] 4 6 = ['F','F'] from rfl, h1]
    rw [decide_eq_true_eq]
    norm_num
  · show hexLuminance "#000000".data = false
    have h1 : parseIntHex ['0', '0'] = 0 := by decide
    rw [show ("#000000".data) = ['#','0','0','0','0','0','0'] from rfl]
    rw [hexLuminance,
      if_pos (show startsWith '#' ['#','0','0','0','0','0','0'] = true from rfl)]
    rw [show removeFirst '#' ['#','0','0','0','0','0','0'] = ['0','0','0','0','0','0']
      from rfl]
    rw [show substringJS ['0','0','0','0','0','0'] 0 2 = ['0','0'] from rfl,
      show substringJS ['0','0','0','0','0','0'] 2 4 = ['0','0'] from rfl,
      show substringJS ['0','0','0','0','0','0'] 4 6 = ['0','0'] from rfl, h1]
    rw [decide_eq_false_iff_not]
    norm_num
  · show hexLuminance "rgb(200,200,200)".data = false
    rw [hexLuminance, if_neg]
    simp [show startsWith '#' ("rgb(200,200,200)".data) = false from rfl]
  · show walkChain ["rgb(200,200,200)".data] = true
    rw [walkChain, if_pos (by decide)]
    rw [parseLuminance, if_neg (by simp [show startsWith '#' ("rgb(200,200,200)".data)
      = false from rfl])]
    rw [show rgbSearch ("rgb(200,200,200)".data) = some (200, 200, 200) from by decide]
    rw [decide_eq_true_eq]
    norm_num

/-- Witness for `theme_luminance`: the general hex rule applied at
`#ff2010`. -/
theorem theme_luminance_witness :
    ((255:ℕ) < 256 ∧ (32:ℕ) < 256 ∧ (16:ℕ) < 256) ∧
    isLightBg ('#' :: (hex2 255 ++ hex2 32 ++ hex2 16)) none
      = decide (150000 < 255 * 299 + 32 * 587 + 16 * 114) ∧
    isLightBg "not-a-color".data none = false :=
  ⟨⟨by norm_num, by norm_num, by norm_num⟩,
    theme_luminance.1 255 32 16 (by norm_num) (by norm_num) (by norm_num),
    theme_luminance.2.1 "not-a-color".data rfl⟩

/-- C9 counterexample: the claim says an explicit `"rgb(200,200,200)"`
background resolves light; the code routes every explicit (non-transparent)
background through `hexLuminance`, which returns `false` for any string not
starting with `'#'` — so `"rgb(200,200,200)"` resolves **dark**. -/
theorem theme_luminance_counterexample :
    isLightBg "rgb(200,200,200)".data none = false ∧
    (150:ℚ) < ((200 * 299 + 200 * 587 + 200 * 114 : ℤ) : ℚ) / 1000 := by
  constructor
  · show hexLuminance "rgb(200,200,200)".data = false
    rw [hexLuminance, if_neg]
    simp [show startsWith '#' ("rgb(200,200,200)".data) = false from rfl]
  · norm_num

/-! ## Percentage stacking (`computeStacked` / `computeStackedExpanded`,
area chart source file)

Ragged rows are handled as in the source: `n` is the first row's length and
`vals[si][i] ?? 0` is `List.getD`. -/

/-- The row-building loop of `computeStacked`, carrying the previous
cumulative row (`si = 0` reads zeros). -/
def stackedGo (n : ℕ) : List ℚ → List (List ℚ) → List (List ℚ)
  | _, [] => []
  | prev, r :: rest =>
    let cur := (List.range n).map (fun i => prev.getD i 0 + r.getD i 0)
    cur :: stackedGo n cur rest

/-- `computeStacked(vals)`: `result[si][i] = (si > 0 ? result[si-1][i] : 0) +
(vals[si][i] ?? 0)` over `n = vals[0]?.length ?? 0` columns. -/
def computeStacked (vals : List (List ℚ)) : List (List ℚ) :=
  stackedGo ((vals.head?.map List.length).getD 0)
    (List.replicate ((vals.head?.map List.length).getD 0) 0) vals

/-- `computeStackedExpanded(vals)`: each cumulative entry is rescaled by the
column total `cumulative[cumulative.length - 1][i]`, to
`cumulative[si][i] / total * 100` when the total is positive and `0`
otherwise. -/
def computeStackedExpanded (vals : List (List ℚ)) : List (List ℚ) :=
  (computeStacked vals).map (fun row =>
    (List.range ((vals.head?.map List.length).getD 0)).map (fun i =>
      if 0 < ((computeStacked vals).getD ((computeStacked vals).length - 1) []).getD i 0
      then row.getD i 0
        / ((computeStacked vals).getD ((computeStacked vals).length - 1) []).getD i 0
        * 100
      else 0))

/-- The `i`-th column total of a value matrix (missing entries read `0`). -/
def colSum (vals : List (List ℚ)) (i : ℕ) : ℚ :=
  (vals.map (fun r => r.getD i 0)).sum

theorem getD_range_map {α : Type} (f : ℕ → α) (d : α) (m k : ℕ) (hk : k < m) :
    ((List.range m).map f).getD k d = f k := by
  simp [List.getD_eq_getElem?_getD, List.getElem?_map, List.getElem?_range, hk]

theorem stackedGo_eq (n : ℕ) :
    ∀ (rows : List (List ℚ)) (prev : List ℚ),
      stackedGo n prev rows = (List.range rows.length).map (fun k =>
        (List.range n).map (fun i =>
          prev.getD i 0 + ((rows.take (k + 1)).map (fun r => r.getD i 0)).sum))
  | [], prev => by simp [stackedGo]
  | r :: rest, prev => by
    have ih := stackedGo_eq n rest ((List.range n).map (fun i => prev.getD i 0 + r.getD i 0))
    simp only [stackedGo, ih, List.length_cons, List.range_succ_eq_map, List.map_cons,
      List.map_map, List.cons.injEq]
    constructor
    · apply List.map_congr_left
      intro i _
      simp
    · apply List.map_congr_left
      intro k _
      simp only [Function.comp_apply]
      apply List.map_congr_left
      intro i hi
      rw [getD_range_map _ _ n i (by simpa using hi)]
      simp only [List.take_succ_cons, List.map_cons, List.sum_cons]
      ring

theorem take_sum_le {l : List ℚ} (h : ∀ x ∈ l, 0 ≤ x) (k : ℕ) :
    (l.take k).sum ≤ l.sum := by
  conv_rhs => rw [← List.take_append_drop k l]
  rw [List.sum_append]
  have : 0 ≤ (l.drop k).sum :=
    List.sum_nonneg (fun x hx => h x (List.drop_subset _ _ hx))
  linarith

theorem take_sum_nonneg {l : List ℚ} (h : ∀ x ∈ l, 0 ≤ x) (k : ℕ) :
    0 ≤ (l.take k).sum :=
  List.sum_nonneg (fun x hx => h x (List.take_subset _ _ hx))

theorem take_sum_mono {l : List ℚ} (h : ∀ x ∈ l, 0 ≤ x) (k : ℕ) :
    (l.take k).sum ≤ (l.take (k + 1)).sum := by
  rcases lt_or_ge k l.length with hk | hk
  · rw [List.sum_take_succ l k hk]
    have h2 : 0 ≤ l[k] := h _ (List.getElem_mem hk)
    linarith
  · rw [List.take_of_length_le hk, List.take_of_length_le (by omega)]

theorem getD_replicate_zero (n i : ℕ) : (List.replicate n (0:ℚ)).getD i 0 = 0 := by
  rw [List.getD_eq_getElem?_getD, List.getElem?_replicate]
  split <;> rfl

theorem getD_map_nil (F : List ℚ → List ℚ) (l : List (List ℚ)) (k : ℕ)
    (hk : k < l.length) :
    (l.map F).getD k [] = F (l.getD k []) := by
  rw [List.getD_eq_getElem?_getD, List.getElem?_map, List.getElem?_eq_getElem hk,
    Option.map_some', Option.getD_some, List.getD_eq_getElem _ _ hk]

/-- The cumulative matrix, row by row: row `k`, column `i` is the partial
column sum over the first `k+1` rows. -/
theorem computeStacked_eq (vals : List (List ℚ)) :
    computeStacked vals = (List.range vals.length).map (fun k =>
      (List.range ((vals.head?.map List.length).getD 0)).map (fun i =>
        ((vals.take (k + 1)).map (fun r => r.getD i 0)).sum)) := by
  rw [computeStacked, stackedGo_eq]
  apply List.map_congr_left
  intro k _
  apply List.map_congr_left
  intro i _
  rw [getD_replicate_zero, zero_add]

/-- The value of one entry of `computeStackedExpanded`: the partial column
sum rescaled by the full column total. -/
theorem stackedExpanded_entry (vals : List (List ℚ)) (si i : ℕ)
    (hsi : si < vals.length) (hi : i < (vals.head?.map List.length).getD 0) :
    ((computeStackedExpanded vals).getD si []).getD i 0 =
      if 0 < colSum vals i
      then ((vals.take (si + 1)).map (fun r => r.getD i 0)).sum / colSum vals i * 100
      else 0 := by
  have hslen : (computeStacked vals).length = vals.length := by
    rw [computeStacked_eq]
    simp
  have hsi' : si < (computeStacked vals).length := by omega
  have hrow : ∀ k (hk : k < vals.length),
      (computeStacked vals).getD k [] =
        (List.range ((vals.head?.map List.length).getD 0)).map (fun j =>
          ((vals.take (k + 1)).map (fun r => r.getD j 0)).sum) := by
    intro k hk
    rw [computeStacked_eq]
    exact getD_range_map _ _ _ _ hk
  have htotal : ∀ j, j < (vals.head?.map List.length).getD 0 →
      ((computeStacked vals).getD ((computeStacked vals).length - 1) []).getD j 0
        = colSum vals j := by
    intro j hj
    rw [hslen, hrow (vals.length - 1) (by omega), getD_range_map _ _ _ _ hj]
    rw [show vals.length - 1 + 1 = vals.length from by omega, List.take_length]
    rfl
  rw [computeStackedExpanded, getD_map_nil _ _ si hsi', hrow si hsi]
  rw [getD_range_map _ _ _ _ hi, htotal i hi, getD_range_map _ _ _ _ hi]

/-- C10: percentage-stacking invariant.  For a matrix of non-negative
values, `computeStackedExpanded` produces one output row per input row, all
entries lie in `[0, 100]`, entries are non-decreasing from one series to the
next at every column, the last series' entry is exactly `100` at every
column whose total is positive, and a zero-total column yields `0` in every
series. -/
theorem stacked_expanded_invariant (vals : List (List ℚ))
    (hnn : ∀ row ∈ vals, ∀ v ∈ row, 0 ≤ v) :
    ((computeStackedExpanded vals).length = vals.length) ∧
    (∀ si i, si < vals.length → i < (vals.head?.map List.length).getD 0 →
      0 ≤ ((computeStackedExpanded vals).getD si []).getD i 0 ∧
        ((computeStackedExpanded vals).getD si []).getD i 0 ≤ 100) ∧
    (∀ si i, si + 1 < vals.length → i < (vals.head?.map List.length).getD 0 →
      ((computeStackedExpanded vals).getD si []).getD i 0 ≤
        ((computeStackedExpanded vals).getD (si + 1) []).getD i 0) ∧
    (∀ i, i < (vals.head?.map List.length).getD 0 → vals ≠ [] →
      0 < colSum vals i →
      ((computeStackedExpanded vals).getD (vals.length - 1) []).getD i 0 = 100) ∧
    (∀ si i, si < vals.length → i < (vals.head?.map List.length).getD 0 →
      colSum vals i = 0 →
      ((computeStackedExpanded vals).getD si []).getD i 0 = 0) := by
  have hL : ∀ i, ∀ x ∈ vals.map (fun r => r.getD i 0), 0 ≤ x := by
    intro i x hx
    rcases List.mem_map.mp hx with ⟨row, hrow, rfl⟩
    rcases lt_or_ge i row.length with hlt | hge
    · rw [List.getD_eq_getElem _ _ hlt]
      exact hnn row hrow _ (List.getElem_mem hlt)
    · rw [List.getD_eq_getElem?_getD, List.getElem?_eq_none (by omega)]
      rfl
  have hS : ∀ i k, ((vals.take k).map (fun r => r.getD i 0)).sum
      = ((vals.map (fun r => r.getD i 0)).take k).sum := by
    intro i k
    rw [List.map_take]
  refine ⟨?_, ?_, ?_, ?_, ?_⟩
  · rw [computeStackedExpanded, computeStacked_eq]
    simp
  · intro si i hsi hi
    rw [stackedExpanded_entry vals si i hsi hi]
    split
    · rename_i hpos
      have h0 : 0 ≤ ((vals.take (si + 1)).map (fun r => r.getD i 0)).sum := by
        rw [hS]
        exact take_sum_nonneg (hL i) _
      have hle : ((vals.take (si + 1)).map (fun r => r.getD i 0)).sum ≤ colSum vals i := by
        rw [hS]
        exact take_sum_le (hL i) _
      constructor
      · positivity
      · rw [div_mul_eq_mul_div, div_le_iff₀ hpos]
        linarith
    · exact ⟨le_refl 0, by norm_num⟩
  · intro si i hsi hi
    rw [stackedExpanded_entry vals si i (by omega) hi,
      stackedExpanded_entry vals (si + 1) i (by omega) hi]
    split
    · rename_i hpos
      have hmono : ((vals.take (si + 1)).map (fun r => r.getD i 0)).sum ≤
          ((vals.take (si + 1 + 1)).map (fun r => r.getD i 0)).sum := by
        rw [hS, hS]
        exact take_sum_mono (hL i) _
      exact mul_le_mul_of_nonneg_right
        ((div_le_div_iff_of_pos_right hpos).mpr hmono) (by norm_num)
    · exact le_refl 0
  · intro i hi hne hpos
    rw [stackedExpanded_entry vals (vals.length - 1) i
      (by have := List.length_pos.mpr hne; omega) hi, if_pos hpos]
    rw [show vals.length - 1 + 1 = vals.length from by
      have := List.length_pos.mpr hne; omega, List.take_length]
    rw [show (vals.map (fun r => r.getD i 0)).sum = colSum vals i from rfl]
    rw [div_self (ne_of_gt hpos), one_mul]
  · intro si i hsi hi hzero
    rw [stackedExpanded_entry vals si i hsi hi, if_neg (by rw [hzero]; exact lt_irrefl 0)]

/-- Witness for `stacked_expanded_invariant`: two series over three columns,
the last column all-zero. -/
theorem stacked_expanded_invariant_witness :
    (∀ row ∈ [[(1:ℚ), 3, 0], [3, 1, 0]], ∀ v ∈ row, 0 ≤ v) ∧
    ((computeStackedExpanded [[(1:ℚ), 3, 0], [3, 1, 0]]).length = 2 ∧
      ∀ i, i < 3 → (0:ℚ) < colSum [[(1:ℚ), 3, 0], [3, 1, 0]] i →
        [[(1:ℚ), 3, 0], [3, 1, 0]] ≠ [] →
        ((computeStackedExpanded [[(1:ℚ), 3, 0], [3, 1, 0]]).getD 1 []).getD i 0 = 100) := by
  have h := stacked_expanded_invariant [[(1:ℚ), 3, 0], [3, 1, 0]]
    (by intro row hrow v hv; fin_cases hrow <;> fin_cases hv <;> norm_num)
  refine ⟨by intro row hrow v hv; fin_cases hrow <;> fin_cases hv <;> norm_num, ?_, ?_⟩
  · rw [h.1]
    rfl
  · intro i hi hpos hne
    have := h.2.2.2.1 i (by simpa using hi) hne hpos
    simpa using this

end DiCharts
